import Mathlib

/-!
Verification of the magiclen/Byte-Unit library core (v5 modules `bit`, `byte`,
`unit`, `common`, plus the bundled legacy `lib.rs` search) against its
natural-language specification.

Modelling conventions:
* Machine integers (`u128`, `u64`) are modelled as `Nat` with explicit bounds
  (`2 ^ 128`, `2 ^ 96`, ...) at the points where the source performs checked
  arithmetic.
* `rust_decimal::Decimal` (an exact scaled-decimal type: 96-bit mantissa,
  scale 0..=28) is modelled as an unbounded mantissa/scale pair `Dec`; the
  points where the source checks mantissa overflow carry explicit `2 ^ 96`
  bounds.
* Byte strings are `List Nat` (byte values); parsers recurse structurally on
  those lists, mirroring the source's `Bytes` iterator.
-/

/-- The `Unit` enum of `src/unit/mod.rs` with the `u128` feature enabled
(`Bit` .. `YiB`).  Named `BUnit` because `Unit` is taken by Lean's core. -/
inductive BUnit where
  | Bit | B
  | Kbit | Kibit | KB | KiB
  | Mbit | Mibit | MB | MiB
  | Gbit | Gibit | GB | GiB
  | Tbit | Tibit | TB | TiB
  | Pbit | Pibit | PB | PiB
  | Ebit | Eibit | EB | EiB
  | Zbit | Zibit | ZB | ZiB
  | Ybit | Yibit | YB | YiB
deriving DecidableEq, Repr, Fintype

/-- `Unit::as_bits_u128`: the number of bits represented by the unit. -/
def as_bits_u128 : BUnit → Nat
  | .Bit => 1
  | .B => 1 <<< 3
  | .Kbit => 1000
  | .Kibit => 1 <<< 10
  | .KB => 1000 <<< 3
  | .KiB => (1 <<< 10) <<< 3
  | .Mbit => 1000000
  | .Mibit => 1 <<< 20
  | .MB => 1000000 <<< 3
  | .MiB => (1 <<< 20) <<< 3
  | .Gbit => 1000000000
  | .Gibit => 1 <<< 30
  | .GB => 1000000000 <<< 3
  | .GiB => (1 <<< 30) <<< 3
  | .Tbit => 1000000000000
  | .Tibit => 1 <<< 40
  | .TB => 1000000000000 <<< 3
  | .TiB => (1 <<< 40) <<< 3
  | .Pbit => 1000000000000000
  | .Pibit => 1 <<< 50
  | .PB => 1000000000000000 <<< 3
  | .PiB => (1 <<< 50) <<< 3
  | .Ebit => 1000000000000000000
  | .Eibit => 1 <<< 60
  | .EB => 1000000000000000000 <<< 3
  | .EiB => (1 <<< 60) <<< 3
  | .Zbit => 1000000000000000000000
  | .Zibit => 1 <<< 70
  | .ZB => 1000000000000000000000 <<< 3
  | .ZiB => (1 <<< 70) <<< 3
  | .Ybit => 1000000000000000000000000
  | .Yibit => 1 <<< 80
  | .YB => 1000000000000000000000000 <<< 3
  | .YiB => (1 <<< 80) <<< 3

/-- `Unit::as_bytes_u128`: `self.as_bits_u128() >> 3` (callers never pass `Bit`). -/
def as_bytes_u128 (u : BUnit) : Nat := as_bits_u128 u >>> 3

example : as_bits_u128 .KiB = 8192 := by decide
example : as_bytes_u128 .Kbit = 125 := by decide

/-- `Unit::as_str`: the canonical string form of a unit. -/
def as_str : BUnit → String
  | .Bit => "b"
  | .B => "B"
  | .Kbit => "Kb"
  | .Kibit => "Kib"
  | .KB => "KB"
  | .KiB => "KiB"
  | .Mbit => "Mb"
  | .Mibit => "Mib"
  | .MB => "MB"
  | .MiB => "MiB"
  | .Gbit => "Gb"
  | .Gibit => "Gib"
  | .GB => "GB"
  | .GiB => "GiB"
  | .Tbit => "Tb"
  | .Tibit => "Tib"
  | .TB => "TB"
  | .TiB => "TiB"
  | .Pbit => "Pb"
  | .Pibit => "Pib"
  | .PB => "PB"
  | .PiB => "PiB"
  | .Ebit => "Eb"
  | .Eibit => "Eib"
  | .EB => "EB"
  | .EiB => "EiB"
  | .Zbit => "Zb"
  | .Zibit => "Zib"
  | .ZB => "ZB"
  | .ZiB => "ZiB"
  | .Ybit => "Yb"
  | .Yibit => "Yib"
  | .YB => "YB"
  | .YiB => "YiB"

/-- The byte string of `as_str` (all unit names are ASCII). -/
def as_str_bytes (u : BUnit) : List Nat := (as_str u).toList.map Char.toNat

example : as_str_bytes .Kibit = [75, 105, 98] := by decide

/-- `Unit::get_multiples` (`u128` feature on): every multiple unit, ordered by
increasing bit magnitude. -/
def get_multiples : List BUnit :=
  [.Kbit, .Kibit, .KB, .KiB,
   .Mbit, .Mibit, .MB, .MiB,
   .Gbit, .Gibit, .GB, .GiB,
   .Tbit, .Tibit, .TB, .TiB,
   .Pbit, .Pibit, .PB, .PiB,
   .Ebit, .Eibit, .EB, .EiB,
   .Zbit, .Zibit, .ZB, .ZiB,
   .Ybit, .Yibit, .YB, .YiB]

/-- `Unit::get_multiples_bytes` (`u128` feature on). -/
def get_multiples_bytes : List BUnit :=
  [.KB, .KiB, .MB, .MiB, .GB, .GiB, .TB, .TiB,
   .PB, .PiB, .EB, .EiB, .ZB, .ZiB, .YB, .YiB]

/-- `Unit::get_multiples_bits` (`u128` feature on). -/
def get_multiples_bits : List BUnit :=
  [.Kbit, .Kibit, .Mbit, .Mibit, .Gbit, .Gibit, .Tbit, .Tibit,
   .Pbit, .Pibit, .Ebit, .Eibit, .Zbit, .Zibit, .Ybit, .Yibit]

/-!  UTF-8 character handling of `src/common.rs`. -/

/-- `utf8_width::get_width_assume_valid` for a valid UTF-8 leading byte:
1 for `0x00..=0x7F`, 2 for `0xC0..=0xDF`, 3 for `0xE0..=0xEF`, 4 above. -/
def utf8_leading_width (e : Nat) : Nat :=
  if e < 0x80 then 1 else if e < 0xE0 then 2 else if e < 0xF0 then 3 else 4

/-- `common::get_char_from_bytes`: assembles the UTF-8 bytes of the offending
character into a `[u8; 4]` buffer and converts it with
`char::from_u32_unchecked(u32::from_ne_bytes(char_bytes))`.  On a little-endian
machine `from_ne_bytes` makes byte 0 the least significant, which is what this
model computes; the result is the raw `u32` scalar the code puts in the error. -/
def get_char_from_bytes (e : Nat) (bytes : List Nat) : Nat :=
  let width := utf8_leading_width e
  let b1 := if width > 1 then bytes.getD 0 0 else 0
  let b2 := if width > 2 then bytes.getD 1 0 else 0
  let b3 := if width > 3 then bytes.getD 2 0 else 0
  e + 256 * b1 + 65536 * b2 + 16777216 * b3

/-- Modelled from the spec: the scalar value of the actual UTF-8 character
starting at byte `e` (what a correct decoder — and the spec's promise to
"report the actual offending character" — produces). -/
def utf8_decode_first (e : Nat) (bytes : List Nat) : Nat :=
  if e < 0x80 then e
  else if e < 0xE0 then (e - 0xC0) * 64 + (bytes.getD 0 0 - 0x80)
  else if e < 0xF0 then
    (e - 0xE0) * 4096 + (bytes.getD 0 0 - 0x80) * 64 + (bytes.getD 1 0 - 0x80)
  else
    (e - 0xF0) * 262144 + (bytes.getD 0 0 - 0x80) * 4096 +
      (bytes.getD 1 0 - 0x80) * 64 + (bytes.getD 2 0 - 0x80)

/-!  The unit-suffix parser of `src/unit/parse.rs`. -/

/-- `UnitParseError` of `src/errors.rs`; `character` and the expected
characters are stored as scalar values. -/
structure UnitParseError where
  character : Nat
  expected_characters : List Nat
  also_expect_no_character : Bool
deriving DecidableEq, Repr

/-- `u8::to_ascii_uppercase`. -/
def to_ascii_uppercase (e : Nat) : Nat := if 97 ≤ e ∧ e ≤ 122 then e - 32 else e

/-- `u8::to_ascii_lowercase`. -/
def to_ascii_lowercase (e : Nat) : Nat := if 65 ≤ e ∧ e ≤ 90 then e + 32 else e

instance {ε α : Type} [DecidableEq ε] [DecidableEq α] : DecidableEq (Except ε α) := by
  intro a b
  cases a <;> cases b
  case error.error x y => exact if h : x = y then .isTrue (by rw [h]) else .isFalse (by simp [h])
  case error.ok x y => exact .isFalse (by simp)
  case ok.error x y => exact .isFalse (by simp)
  case ok.ok x y => exact if h : x = y then .isTrue (by rw [h]) else .isFalse (by simp [h])

/-- `unit::parse::read_b`: after a `b`/`B`, accept end of input, or the
spelled-out `it`/`its` (case-insensitively), reporting errors otherwise.
`byte` is the flavor decided by the caller. -/
def read_b (bytes : List Nat) (byte : Bool) : Except UnitParseError Bool :=
  match bytes with
  | [] => .ok byte
  | e :: rest =>
    if to_ascii_lowercase e = 105 then        -- 'i'
      match rest with
      | [] => .error ⟨105, [], true⟩
      | e2 :: rest2 =>
        if to_ascii_lowercase e2 = 116 then   -- 't'
          match rest2 with
          | [] => .ok false
          | e3 :: rest3 =>
            if to_ascii_lowercase e3 = 115 then -- 's'
              match rest3 with
              | [] => .ok false
              | e4 :: rest4 => .error ⟨get_char_from_bytes e4 rest4, [], true⟩
            else .error ⟨get_char_from_bytes e3 rest3, [115], true⟩
        else .error ⟨get_char_from_bytes e2 rest2, [116], false⟩
    else .error ⟨get_char_from_bytes e rest, [105], true⟩

/-- The tail of `unit::parse::read_ib` after the optional `i`/`I` has been
consumed: `e` must be `b` or `B`, else a `UnitParseError` is raised. -/
def read_ib_after (i : Bool) (e : Nat) (rest : List Nat)
    (ignore_case default_upper_case : Bool) : Except UnitParseError (Bool × Bool) :=
  if e = 98 ∨ e = 66 then                      -- b'b' | b'B'
    (read_b rest (if ignore_case then true else e = 66)).map (fun byte => (i, byte))
  else
    .error ⟨get_char_from_bytes e rest,
      if ignore_case then (if default_upper_case then [66] else [98]) else [66, 98],
      true⟩

/-- `unit::parse::read_ib`: reads the optional binary indicator `i`/`I`
followed by `b`/`B` (with `read_b` handling what follows); returns
`(saw_i, is_byte)`. -/
def read_ib (bytes : List Nat) (ignore_case default_upper_case : Bool) :
    Except UnitParseError (Bool × Bool) :=
  match bytes with
  | [] => .ok (false, default_upper_case)
  | e :: rest =>
    if e = 105 ∨ e = 73 then                   -- b'i' | b'I'
      match rest with
      | [] => .ok (true, default_upper_case)
      | ne :: rest2 => read_ib_after true ne rest2 ignore_case default_upper_case
    else read_ib_after false e rest ignore_case default_upper_case

/-- `unit::parse::read_xib`: dispatch on the (uppercased) first byte of the
unit suffix; empty input gives the `prefer_byte` default. -/
def read_xib (e : Option Nat) (bytes : List Nat) (ignore_case prefer_byte : Bool) :
    Except UnitParseError BUnit :=
  match e with
  | none => .ok (if prefer_byte then .B else .Bit)
  | some e =>
    match to_ascii_uppercase e with
    | 66 =>                                    -- b'B'
      (read_b bytes (if ignore_case then true else e = 66)).map
        (fun byte => if byte then BUnit.B else BUnit.Bit)
    | 75 =>                                    -- b'K'
      (read_ib bytes ignore_case prefer_byte).map (fun r =>
        if r.1 then (if r.2 then BUnit.KiB else BUnit.Kibit)
        else if r.2 then BUnit.KB else BUnit.Kbit)
    | 77 =>                                    -- b'M'
      (read_ib bytes ignore_case prefer_byte).map (fun r =>
        if r.1 then (if r.2 then BUnit.MiB else BUnit.Mibit)
        else if r.2 then BUnit.MB else BUnit.Mbit)
    | 71 =>                                    -- b'G'
      (read_ib bytes ignore_case prefer_byte).map (fun r =>
        if r.1 then (if r.2 then BUnit.GiB else BUnit.Gibit)
        else if r.2 then BUnit.GB else BUnit.Gbit)
    | 84 =>                                    -- b'T'
      (read_ib bytes ignore_case prefer_byte).map (fun r =>
        if r.1 then (if r.2 then BUnit.TiB else BUnit.Tibit)
        else if r.2 then BUnit.TB else BUnit.Tbit)
    | 80 =>                                    -- b'P'
      (read_ib bytes ignore_case prefer_byte).map (fun r =>
        if r.1 then (if r.2 then BUnit.PiB else BUnit.Pibit)
        else if r.2 then BUnit.PB else BUnit.Pbit)
    | 69 =>                                    -- b'E'
      (read_ib bytes ignore_case prefer_byte).map (fun r =>
        if r.1 then (if r.2 then BUnit.EiB else BUnit.Eibit)
        else if r.2 then BUnit.EB else BUnit.Ebit)
    | 90 =>                                    -- b'Z' (u128 feature)
      (read_ib bytes ignore_case prefer_byte).map (fun r =>
        if r.1 then (if r.2 then BUnit.ZiB else BUnit.Zibit)
        else if r.2 then BUnit.ZB else BUnit.Zbit)
    | 89 =>                                    -- b'Y' (u128 feature)
      (read_ib bytes ignore_case prefer_byte).map (fun r =>
        if r.1 then (if r.2 then BUnit.YiB else BUnit.Yibit)
        else if r.2 then BUnit.YB else BUnit.Ybit)
    | _ =>
      .error ⟨get_char_from_bytes e bytes, [66, 75, 77, 71, 84, 80, 69, 90, 89], true⟩

/-- Is a byte ASCII whitespace (`str::trim` on the inputs considered here only
meets spaces, tabs and line breaks). -/
def is_space_byte (e : Nat) : Bool := e = 32 ∨ e = 9 ∨ e = 10 ∨ e = 13

/-- `str::trim` on a byte string. -/
def trim_bytes (s : List Nat) : List Nat :=
  ((s.dropWhile is_space_byte).reverse.dropWhile is_space_byte).reverse

/-- `Unit::parse_str`: trim, then run `read_xib` on the bytes. -/
def unit_parse_str (s : List Nat) (ignore_case prefer_byte : Bool) :
    Except UnitParseError BUnit :=
  let t := trim_bytes s
  read_xib t.head? t.tail ignore_case prefer_byte

example : unit_parse_str [75, 105, 98] true true = .ok .KiB := by decide
example : unit_parse_str [75, 105, 98] false true = .ok .Kibit := by decide
example : unit_parse_str [107, 98] false false = .ok .Kbit := by decide
example : unit_parse_str [107, 98] false true = .ok .Kbit := by decide
example : unit_parse_str [] false true = .ok .B := by decide
example : unit_parse_str [98, 105, 116, 115] true false = .ok .Bit := by decide

/-!  The `rust_decimal::Decimal` model and the value parser of
`src/bit/parse.rs`. -/

/-- Model of a non-negative `rust_decimal::Decimal`: value `num / 10 ^ scale`.
The real type bounds `num < 2 ^ 96` and `scale ≤ 28`; the bounds are made
explicit at the checked operations that enforce them. -/
structure Dec where
  num : Nat
  scale : Nat
deriving DecidableEq, Repr

/-- The rational value of a `Dec`. -/
def Dec.toRat (d : Dec) : ℚ := (d.num : ℚ) / (10 : ℚ) ^ d.scale

/-- `ValueParseError` of `src/errors.rs` (characters as scalar values). -/
inductive ValueParseError where
  | ExceededBounds (value : Dec)
  | NotNumber (character : Nat)
  | NoValue
  | NumberTooLong
deriving DecidableEq, Repr

/-- `ParseError` of `src/errors.rs`. -/
inductive ParseError where
  | Value (error : ValueParseError)
  | Unit (error : UnitParseError)
deriving DecidableEq, Repr

/-- `RONNABIT` of `src/bit/mod.rs` (`u128` feature): `10 ^ 27`. -/
def RONNABIT : Nat := 1000000000000000000000000000

/-- `RONNABYTE` of `src/byte/mod.rs` (`u128` feature): `10 ^ 27`. -/
def RONNABYTE : Nat := 1000000000000000000000000000

/-- `Bit::from_u128`: accept sizes below `RONNABIT`. -/
def bit_from_u128 (size : Nat) : Option Nat :=
  if size < RONNABIT then some size else none

/-- `Byte::from_u128`: accept sizes below `RONNABYTE`. -/
def byte_from_u128 (size : Nat) : Option Nat :=
  if size < RONNABYTE then some size else none

/-- `Bit::from_decimal`: `size.ceil().to_u128()` then `from_u128` (the
`size >= Decimal::ZERO` guard is vacuous on this non-negative model, which is
only ever fed parser- or conversion-produced non-negative decimals). -/
def bit_from_decimal (size : Dec) : Option Nat :=
  let c := size.num / 10 ^ size.scale + (if size.num % 10 ^ size.scale = 0 then 0 else 1)
  bit_from_u128 c

/-- `Bit::from_decimal_with_unit`: multiply by the unit's bit count with
`Decimal::checked_mul` (which fails once the integer part can no longer be
represented in the 96-bit mantissa), then `from_decimal`. -/
def bit_from_decimal_with_unit (size : Dec) (unit : BUnit) : Option Nat :=
  if unit = .Bit then bit_from_decimal size
  else
    if 2 ^ 96 * 10 ^ size.scale ≤ size.num * as_bits_u128 unit then none
    else bit_from_decimal ⟨size.num * as_bits_u128 unit, size.scale⟩

/-- Skip a run of `b' '` bytes; return the first non-space byte (if any) and
the bytes after it — the inner space loops of `Bit::parse_str`. -/
def skip_spaces : List Nat → Option Nat × List Nat
  | [] => (none, [])
  | e :: rest => if e = 32 then skip_spaces rest else (some e, rest)

/-- Is a byte an ASCII digit (`b'0'..=b'9'`). -/
def is_digit_byte (e : Nat) : Bool := 48 ≤ e ∧ e ≤ 57

/-- The fractional-part loop of `Bit::parse_str`: `i` is the 1-based index of
the next fractional digit (`d.set_scale(i)` fails — `NumberTooLong` — for
`i > 28`); `dot` is the byte that opened the fraction (`b'.'`), reported when
input ends right after it.  Returns the accumulated value, the byte handed to
the unit parser (if any) and the remaining bytes. -/
def parse_frac_loop (value : Dec) (i : Nat) (dot : Nat) :
    List Nat → Except ValueParseError (Dec × (Option Nat × List Nat))
  | [] =>
    if i = 1 then .error (.NotNumber (get_char_from_bytes dot [])) else .ok (value, none, [])
  | e :: rest =>
    if is_digit_byte e then
      if 28 < i then .error .NumberTooLong
      else parse_frac_loop ⟨value.num * 10 + (e - 48), i⟩ (i + 1) dot rest
    else if i = 1 then .error (.NotNumber (get_char_from_bytes e rest))
    else if e = 32 then .ok (value, skip_spaces rest)
    else .ok (value, some e, rest)

/-- The integer-part loop of `Bit::parse_str`: accumulate
`value * 10 + digit` with `Decimal::checked_mul` / `checked_add` (mantissa
overflow at `2 ^ 96` is `NumberTooLong`), branch to the fraction on `b'.'`,
skip spaces, and otherwise hand the byte to the unit parser. -/
def parse_int_loop (value : Nat) :
    List Nat → Except ValueParseError (Dec × (Option Nat × List Nat))
  | [] => .ok (⟨value, 0⟩, none, [])
  | e :: rest =>
    if is_digit_byte e then
      if 2 ^ 96 ≤ value * 10 then .error .NumberTooLong
      else if 2 ^ 96 ≤ value * 10 + (e - 48) then .error .NumberTooLong
      else parse_int_loop (value * 10 + (e - 48)) rest
    else if e = 46 then parse_frac_loop ⟨value, 0⟩ 1 46 rest
    else if e = 32 then .ok (⟨value, 0⟩, skip_spaces rest)
    else .ok (⟨value, 0⟩, some e, rest)

/-- The body of `Bit::parse_str` after the initial `trim`: parse the numeric
literal, parse the unit suffix with `read_xib(_, _, false, false)`, then
scale with `from_decimal_with_unit`, reporting `ExceededBounds` when that
fails. -/
def bit_parse_trimmed : List Nat → Except ParseError Nat
  | [] => .error (.Value .NoValue)
  | e :: rest =>
    if is_digit_byte e then
      match parse_int_loop (e - 48) rest with
      | .error pe => .error (.Value pe)
      | .ok (value, ne, rest2) =>
        match read_xib ne rest2 false false with
        | .error ue => .error (.Unit ue)
        | .ok unit =>
          match bit_from_decimal_with_unit value unit with
          | some m => .ok m
          | none => .error (.Value (.ExceededBounds value))
    else .error (.Value (.NotNumber (get_char_from_bytes e rest)))

/-- `Bit::parse_str`: `s.as_ref().trim()` then the parse body. -/
def bit_parse_str (s : List Nat) : Except ParseError Nat :=
  bit_parse_trimmed (trim_bytes s)

example : bit_parse_str [49, 46, 50, 107, 98] = .ok 1200 := by decide
example : bit_parse_str [49, 46, 50, 107, 66] = .ok 9600 := by decide
example : bit_parse_str [50, 32, 107, 105, 98] = .ok 2048 := by decide
example : bit_parse_str [49, 46, 49] = .ok 2 := by decide
example : bit_parse_str [] = .error (.Value .NoValue) := by decide
example : bit_parse_str [45, 48] =
    .error (.Value (.NotNumber 45)) := by decide
example : bit_parse_str [49, 46] = .error (.Value (.NotNumber 46)) := by decide

/-!  `common::is_zero_remainder_decimal` and `Bit::get_recoverable_unit`
(`src/bit/decimal.rs`). -/

/-- `Decimal::round` of `num / den` (`den > 0`): rust_decimal rounds to the
nearest integer, ties to even (banker's rounding). -/
def round_half_even_div (num den : Nat) : Nat :=
  let q := num / den
  let r := num % den
  if 2 * r < den then q
  else if den < 2 * r then q + 1
  else if q % 2 = 0 then q else q + 1

/-- `common::is_zero_remainder_decimal` for integer `a` and `b > 0`: compute
the quotient `a / b`, round it to `precision` fractional digits
(`trunc + round(fract * 10^p) / 10^p`, or plain `round` at precision 0), and
accept it when multiplying back by `b` restores `a` exactly.  The quotient is
returned with scale `precision` (scale 0 at precision 0), exactly as the
source's `trunc + fract` arithmetic produces it.  Decimal division is
idealized as exact rational division (the source's division rounds once the
96-bit mantissa is exhausted, in which case the reconstruction test fails
anyway). -/
def is_zero_remainder_decimal (a b precision : Nat) : Option Dec :=
  let qr : Dec :=
    if precision = 0 then ⟨round_half_even_div a b, 0⟩
    else ⟨a / b * 10 ^ precision + round_half_even_div (a % b * 10 ^ precision) b, precision⟩
  if qr.num * b = a * 10 ^ qr.scale then some qr else none

/-- The descending-index loop of `Bit::get_recoverable_unit`, walking the
unit slice from its last element (largest magnitude) to its first: try each
unit whose bit count does not exceed `bits_v`. -/
def recover_loop (bits_v precision : Nat) : List BUnit → Option (Dec × BUnit)
  | [] => none
  | u :: rest =>
    if as_bits_u128 u ≤ bits_v then
      match is_zero_remainder_decimal bits_v (as_bits_u128 u) precision with
      | some q => some (q, u)
      | none => recover_loop bits_v precision rest
    else recover_loop bits_v precision rest

/-- `Bit::get_recoverable_unit`: clamp the precision to 28, walk the chosen
multiples list from largest to smallest, and fall back to
`(Decimal::from(bits), Unit::Bit)`. -/
def bit_get_recoverable_unit (bits_v : Nat) (allow_in_bytes : Bool) (precision : Nat) :
    Dec × BUnit :=
  let p := if 28 ≤ precision then 28 else precision
  let a := if allow_in_bytes then get_multiples else get_multiples_bits
  (recover_loop bits_v p a.reverse).getD (⟨bits_v, 0⟩, .Bit)

example : bit_get_recoverable_unit 3670016 false 3 = (⟨3500, 3⟩, .Mibit) := by decide
example : bit_get_recoverable_unit 437500 false 3 = (⟨437500, 3⟩, .Kbit) := by decide
example : bit_get_recoverable_unit 28000000 true 3 = (⟨3500, 3⟩, .MB) := by decide
example : bit_get_recoverable_unit 0 false 3 = (⟨0, 0⟩, .Bit) := by decide

/-!  Digit strings and the exact-unit `Display` of `src/bit/mod.rs`. -/

/-- Decimal digit bytes of `n`, most significant first (`fuel`-bounded
helper; `fuel > n` always suffices since `n / 10 < n` for `n ≥ 10`). -/
def nat_digits_aux : Nat → Nat → List Nat
  | 0, _ => []
  | fuel + 1, n =>
    if n < 10 then [48 + n] else nat_digits_aux fuel (n / 10) ++ [48 + n % 10]

/-- Decimal digit bytes of `n`, most significant first, e.g. `120 ↦ "120"`. -/
def nat_digits (n : Nat) : List Nat := nat_digits_aux (n + 1) n

example : nat_digits 3500 = [51, 53, 48, 48] := by decide
example : nat_digits 0 = [48] := by decide

/-- Helper for `dec_normalize`, recursing on the scale. -/
def dec_normalize_aux : Nat → Nat → Dec
  | n, 0 => ⟨n, 0⟩
  | n, s + 1 => if n % 10 = 0 then dec_normalize_aux (n / 10) s else ⟨n, s + 1⟩

/-- `Decimal::normalize`: strip trailing zeros from the fractional part. -/
def dec_normalize (d : Dec) : Dec := dec_normalize_aux d.num d.scale

example : dec_normalize ⟨3500, 3⟩ = ⟨35, 1⟩ := by decide

/-- `Display for Decimal` on a non-negative value: the integer part, then —
when the scale is positive — a dot and exactly `scale` fractional digits
(zero-padded on the left). -/
def dec_display_bytes (d : Dec) : List Nat :=
  if d.scale = 0 then nat_digits d.num
  else
    let frac := nat_digits (d.num % 10 ^ d.scale)
    nat_digits (d.num / 10 ^ d.scale) ++ 46 ::
      (List.replicate (d.scale - frac.length) 48 ++ frac)

example : dec_display_bytes ⟨35, 1⟩ = [51, 46, 53] := by decide
example : dec_display_bytes ⟨5, 3⟩ = [48, 46, 48, 48, 53] := by decide

/-- `impl Display for Bit` with the alternate flag, no width, no sign flags
and precision `p` (default 3): `get_recoverable_unit(false, p)`, normalize the
value, print it, one space (`space_length = 1`), then the unit string. -/
def bit_format_exact (bits_v p : Nat) : List Nat :=
  let r := bit_get_recoverable_unit bits_v false p
  dec_display_bytes (dec_normalize r.1) ++ 32 :: as_str_bytes r.2

example : bit_format_exact 3211776 3 = [51, 49, 51, 54, 46, 53, 32, 75, 105, 98] := by decide
example : bit_parse_str (bit_format_exact 3211776 3) = .ok 3211776 := by decide
example : bit_parse_str (bit_format_exact 3211776 6) = .ok 3211776 := by decide
example : bit_parse_str (bit_format_exact 3211776 0) = .ok 3211776 := by decide
example : bit_parse_str (bit_format_exact 0 3) = .ok 0 := by decide
example : bit_parse_str (bit_format_exact 999999999999999999999999999 2) =
    .ok 999999999999999999999999999 := by decide

/-!  `get_exact_unit` (`src/bit/mod.rs`, `src/byte/mod.rs`). -/

/-- The descending-index loop shared by both `get_exact_unit` versions
(walking the slice from its last element down): first unit whose magnitude
(under `mag`) divides the value and does not exceed it. -/
def exact_loop (v : Nat) (mag : BUnit → Nat) : List BUnit → Option (Nat × BUnit)
  | [] => none
  | u :: rest =>
    if mag u ≤ v ∧ v % mag u = 0 then some (v / mag u, u)
    else exact_loop v mag rest

/-- `Bit::get_exact_unit`. -/
def bit_get_exact_unit (bits_v : Nat) (allow_in_bytes : Bool) : Nat × BUnit :=
  let a := if allow_in_bytes then get_multiples else get_multiples_bits
  (exact_loop bits_v as_bits_u128 a.reverse).getD (bits_v, .Bit)

/-- `Byte::get_exact_unit` (magnitudes in bytes, fallback `Unit::B`). -/
def byte_get_exact_unit (bytes_v : Nat) (allow_in_bits : Bool) : Nat × BUnit :=
  let a := if allow_in_bits then get_multiples else get_multiples_bytes
  (exact_loop bytes_v as_bytes_u128 a.reverse).getD (bytes_v, .B)

example : bit_get_exact_unit 3145728 true = (3, .Mibit) := by decide
example : bit_get_exact_unit 24000000 true = (3, .MB) := by decide
example : bit_get_exact_unit 24000000 false = (24, .Mbit) := by decide
example : byte_get_exact_unit 375000 true = (3, .Mbit) := by decide
example : byte_get_exact_unit 375000 false = (375, .KB) := by decide

/-!  Adjusted values and `get_appropriate_unit`
(`src/bit/adjusted/mod.rs` and the legacy `src/lib.rs`). -/

/-- `UnitType` of `src/unit/unit_type.rs`. -/
inductive UnitType where
  | Binary
  | Decimal
  | Both
deriving DecidableEq, Repr

/-- `AdjustedBit`: the `f64` value is idealized as the exact scaled decimal
it approximates (every unit magnitude is of the form `2^a * 5^b`, so the
exact quotient always has a finite decimal expansion). -/
structure AdjustedBit where
  value : Dec
  unit : BUnit
deriving DecidableEq, Repr

/-- Exact decimal quotient `a / b` for `b` dividing some power of ten: the
smallest scale `s` with `b ∣ a * 10 ^ s` (every `as_bits_u128` magnitude
divides `10 ^ 100`). -/
def dec_div (a b : Nat) : Dec :=
  match (List.range 101).find? (fun s => a * 10 ^ s % b = 0) with
  | some s => ⟨a * 10 ^ s / b, s⟩
  | none => ⟨0, 0⟩

example : dec_div 125952 1000 = ⟨125952, 3⟩ := by decide

/-- `Bit::get_adjusted_unit`: note the source computes `(bit_v << 3) as f64`
for `Unit::Bit` and the raw `bit_v as f64` for `Unit::B` (the same match arms
as the byte-flavored version), and divides by the unit's bit count
otherwise. -/
def bit_get_adjusted_unit (bit_v : Nat) (unit : BUnit) : AdjustedBit :=
  let value : Dec :=
    if unit = .Bit then ⟨bit_v <<< 3, 0⟩
    else if unit = .B then ⟨bit_v, 0⟩
    else dec_div bit_v (as_bits_u128 unit)
  ⟨value, unit⟩

/-- Every other element of a list, starting with the first
(`Iterator::step_by(2)`). -/
def step_by2 : List BUnit → List BUnit
  | [] => []
  | [u] => [u]
  | u :: _ :: rest => u :: step_by2 rest

/-- The unit sequence `a.iter().rev().skip(skip).step_by(step)` walked by
`Bit::get_appropriate_unit` for each `UnitType`
(`Binary ↦ (0, 2)`, `Decimal ↦ (1, 2)`, `Both ↦ (0, 1)`). -/
def bit_appropriate_list (unit_type : UnitType) : List BUnit :=
  match unit_type with
  | .Binary => step_by2 get_multiples_bits.reverse
  | .Decimal => step_by2 (get_multiples_bits.reverse.drop 1)
  | .Both => get_multiples_bits.reverse

/-- `Bit::get_appropriate_unit`: first walked unit whose bit count does not
exceed the value, else `get_adjusted_unit(Unit::B)`. -/
def bit_get_appropriate_unit (bits_v : Nat) (unit_type : UnitType) : AdjustedBit :=
  match (bit_appropriate_list unit_type).find? (fun u => as_bits_u128 u ≤ bits_v) with
  | some u => bit_get_adjusted_unit bits_v u
  | none => bit_get_adjusted_unit bits_v .B

example : bit_get_appropriate_unit 15000000 .Decimal = ⟨⟨15, 0⟩, .Mbit⟩ := by decide
example : bit_get_appropriate_unit 10000 .Binary = ⟨⟨9765625, 6⟩, .Kibit⟩ := by decide

/-- `AdjustedBit::get_bit`:
`Bit::from_f64_with_unit(self.value, self.unit).unwrap()` — `Decimal::from_f64`
is the identity on this idealized value (always in `Decimal` range here), so
the body is `bit_from_decimal_with_unit`; a `none` result is a panic of the
`unwrap` in the source. -/
def adjusted_bit_get_bit (adjusted : AdjustedBit) : Option Nat :=
  bit_from_decimal_with_unit adjusted.value adjusted.unit

/-- The unit thresholds of the legacy `Byte::get_appropriate_unit`
(`src/lib.rs`), bytes per unit: `n_kb_bytes!()` … `n_pib_bytes!()`. -/
def legacy_chain (binary_multiples : Bool) : List BUnit :=
  if binary_multiples then [.PiB, .TiB, .GiB, .MiB, .KiB] else [.PB, .TB, .GB, .MB, .KB]

/-- The legacy `Byte::get_appropriate_unit(binary_multiples)` of `src/lib.rs`:
an if/else chain testing `bytes > n_xb_bytes!()` with *strict* comparisons
from `PiB`/`PB` down to `KiB`/`KB`, falling back to `ByteUnit::B` with the raw
byte count.  (The legacy `ByteUnit` variants used are rendered with the
`BUnit` constructors of the same name.) -/
def legacy_byte_get_appropriate_unit (bytes : Nat) (binary_multiples : Bool) : AdjustedBit :=
  match (legacy_chain binary_multiples).find? (fun u => as_bytes_u128 u < bytes) with
  | some u => ⟨dec_div bytes (as_bytes_u128 u), u⟩
  | none => ⟨⟨bytes, 0⟩, .B⟩

example : legacy_byte_get_appropriate_unit 125952 false = ⟨⟨125952, 3⟩, .KB⟩ := by decide
example : legacy_byte_get_appropriate_unit 1000 false = ⟨⟨1000, 0⟩, .B⟩ := by decide

/-!  `Byte` construction (`src/byte/mod.rs`) and checked arithmetic
(`src/bit/mod.rs`, methods for calculation). -/

/-- `Byte::from_u128_with_unit`: for `Unit::Bit` the source computes
`if size & 11 > 0 { (size >> 3) + 1 } else { size >> 3 }` — note the literal
`11` (`0b1011`), not `0b111`; other units use `checked_mul` (`u128` overflow)
with the unit's byte count, then `from_u128`. -/
def byte_from_u128_with_unit (size : Nat) (unit : BUnit) : Option Nat :=
  if unit = .Bit then
    byte_from_u128 (if 0 < size &&& 11 then (size >>> 3) + 1 else size >>> 3)
  else if unit = .B then byte_from_u128 size
  else
    if size * as_bytes_u128 unit < 2 ^ 128 then
      byte_from_u128 (size * as_bytes_u128 unit)
    else none

example : byte_from_u128_with_unit 15 .MB = some 15000000 := by decide

/-- `Bit::add`: `checked_add` on the raw `u128` magnitudes (operands are
`Bit` values, i.e. below `2 ^ 128`). -/
def bit_add (a rhs : Nat) : Option Nat :=
  if a + rhs < 2 ^ 128 then some (a + rhs) else none

/-- `Bit::subtract`: `checked_sub` on the raw `u128` magnitudes. -/
def bit_subtract (a rhs : Nat) : Option Nat :=
  if rhs ≤ a then some (a - rhs) else none

/-- `Bit::multiply` (`u128` feature): `checked_mul` with the `usize` factor
widened to `u128`. -/
def bit_multiply (a rhs : Nat) : Option Nat :=
  if a * rhs < 2 ^ 128 then some (a * rhs) else none

/-- `Bit::divide`: `checked_div` — `none` exactly on a zero divisor, and the
quotient is truncated. -/
def bit_divide (a rhs : Nat) : Option Nat :=
  if rhs = 0 then none else some (a / rhs)

/-!  #############################  Claims  #############################  -/

/-- C3 (code_bug): converting bits to bytes is documented ("the calculated
byte will be rounded up") and specified as the ceiling of `n / 8`, but the
source tests `size & 11` (decimal `11 = 0b1011`) instead of `size & 0b111`:
8 bits become 2 bytes and 4 bits become 0 bytes, while `ceil(n / 8)` is 1 in
both cases. -/
theorem c3_bit_to_byte_not_ceiling :
    byte_from_u128_with_unit 8 .Bit = some 2 ∧
    byte_from_u128_with_unit 4 .Bit = some 0 ∧
    (8 + 7) / 8 = 1 ∧ (4 + 7) / 8 = 1 := by decide

/-- C6 (counterexample): with `ignore_case = false`, parsing `"kb"` with
`prefer_byte = true` yields `Kbit`, not the byte-flavored `KB` the claim
states (`[107, 98]` is `"kb"`). -/
theorem c6_counterexample :
    unit_parse_str [107, 98] false true = .ok .Kbit ∧ BUnit.Kbit ≠ BUnit.KB := by decide

/-- C6 (amended): with `ignore_case = false` an explicit lowercase `b` always
selects the bit flavor — `"kb"` parses to `Kbit` for both values of
`prefer_byte`; the byte-flavored kilo unit is produced when the case of `b`
is ignored (`ignore_case = true`), for either `prefer_byte`. -/
theorem c6_kb_case_sensitivity :
    unit_parse_str [107, 98] false false = .ok .Kbit ∧
    unit_parse_str [107, 98] false true = .ok .Kbit ∧
    unit_parse_str [107, 98] true false = .ok .KB ∧
    unit_parse_str [107, 98] true true = .ok .KB := by decide

/-- The magnitude letters with their binary bit and binary byte units:
`(letter byte, Xibit, XiB)`. -/
def magnitude_letters : List (Nat × BUnit × BUnit) :=
  [(75, .Kibit, .KiB), (77, .Mibit, .MiB), (71, .Gibit, .GiB), (84, .Tibit, .TiB),
   (80, .Pibit, .PiB), (69, .Eibit, .EiB), (90, .Zibit, .ZiB), (89, .Yibit, .YiB)]

/-- C7 (counterexample): `"Ki"` (`[75, 105]`) with `ignore_case = false`,
`prefer_byte = false` parses to the binary *bit* unit `Kibit`, not the byte
unit `KiB` the claim promises for every flag combination. -/
theorem c7_counterexample :
    unit_parse_str [75, 105] false false = .ok .Kibit ∧ BUnit.Kibit ≠ BUnit.KiB := by decide

/-- C7 (amended): for every magnitude letter and both flags, a suffix
`letter ('i' | 'I') 'B'` at end of input always parses to the binary byte
unit; the bare `letter ('i' | 'I')` at end of input parses to the binary
*byte* unit only when `prefer_byte` is set and to the binary *bit* unit
otherwise. -/
theorem c7_binary_byte_suffix :
    ∀ ic pb : Bool, ∀ x ∈ magnitude_letters, ∀ i ∈ [105, 73],
      unit_parse_str [x.1, i, 66] ic pb = .ok x.2.2 ∧
      unit_parse_str [x.1, i] ic pb = .ok (if pb then x.2.2 else x.2.1) := by decide

/-- C7 (witness): the amended suffix rule applied at the letter `K` with
`'i'` (byte 105) and both flags false: `"KiB"` gives the byte unit, bare
`"Ki"` the bit unit. -/
theorem c7_witness :
    unit_parse_str [75, 105, 66] false false = .ok BUnit.KiB ∧
    unit_parse_str [75, 105] false false = .ok BUnit.Kibit :=
  ⟨(c7_binary_byte_suffix false false (75, .Kibit, .KiB) (by decide) 105 (by decide)).1,
   (c7_binary_byte_suffix false false (75, .Kibit, .KiB) (by decide) 105 (by decide)).2⟩

/-- C9 (code_bug): on the two-byte character `'é'` (`U+00E9`, UTF-8 bytes
`[0xC3, 0xA9] = [195, 169]`), the unit parser's error should carry the actual
character (scalar 233 per the spec and the correct decoder
`utf8_decode_first`), but `get_char_from_bytes` assembles the raw UTF-8 bytes
with `u32::from_ne_bytes`, yielding scalar `43459` (`0xA9C3`).  The
expected-character set is reported correctly. -/
theorem c9_multibyte_char_garbled :
    unit_parse_str [195, 169] false false =
      .error ⟨43459, [66, 75, 77, 71, 84, 80, 69, 90, 89], true⟩ ∧
    utf8_decode_first 195 [169] = 233 ∧ (43459 : Nat) ≠ 233 := by decide

/-- C8 (counterexample): two valid `Bit` magnitudes of `9 * 10^26` (each
below `RONNABIT = 10^27`) add without failure to `1.8 * 10^27`, which is
outside the claimed `[0, 10^27)` range. -/
theorem c8_counterexample :
    (bit_from_u128 900000000000000000000000000).isSome = true ∧
    bit_add 900000000000000000000000000 900000000000000000000000000 =
      some 1800000000000000000000000000 ∧
    RONNABIT ≤ 1800000000000000000000000000 := by decide

/-- Whatever `Bit::from_decimal` accepts is below `RONNABIT`. -/
lemma bit_from_decimal_lt {d : Dec} {n : Nat} (h : bit_from_decimal d = some n) :
    n < RONNABIT := by
  simp only [bit_from_decimal, bit_from_u128] at h
  split at h <;> simp_all <;> omega

/-- Whatever `Bit::from_decimal_with_unit` accepts is below `RONNABIT`. -/
lemma bit_from_decimal_with_unit_lt {d : Dec} {u : BUnit} {n : Nat}
    (h : bit_from_decimal_with_unit d u = some n) : n < RONNABIT := by
  unfold bit_from_decimal_with_unit at h
  split at h
  · exact bit_from_decimal_lt h
  · split at h
    · simp_all
    · exact bit_from_decimal_lt h

/-- Whatever the trimmed parse body accepts is below `RONNABIT`. -/
lemma bit_parse_trimmed_ok_lt {l : List Nat} {m : Nat} (h : bit_parse_trimmed l = .ok m) :
    m < RONNABIT := by
  unfold bit_parse_trimmed at h
  split at h
  · exact absurd h (by simp)
  · split at h
    · split at h
      · exact absurd h (by simp)
      · split at h
        · exact absurd h (by simp)
        · split at h
          · next heq =>
            injection h with h2
            exact h2 ▸ bit_from_decimal_with_unit_lt heq
          · exact absurd h (by simp)
    · exact absurd h (by simp)

/-- Whatever `Bit::parse_str` accepts is below `RONNABIT`. -/
lemma bit_parse_str_ok_lt {s : List Nat} {m : Nat} (h : bit_parse_str s = .ok m) :
    m < RONNABIT :=
  bit_parse_trimmed_ok_lt h

/-- C8 (amended): the `[0, RONNABIT)` range is enforced by construction
(`from_u128`) and by parsing, and is preserved by `subtract` and `divide`;
but `add` and `multiply` only detect `u128` overflow — they fail exactly when
the mathematical result reaches `2^128`, so an in-range pair may produce an
out-of-range magnitude (see the counterexample) without failure. -/
theorem c8_range_enforcement :
    (∀ n, (bit_from_u128 n).isSome ↔ n < RONNABIT) ∧
    (∀ s m, bit_parse_str s = .ok m → m < RONNABIT) ∧
    (∀ a b c, a < RONNABIT → bit_subtract a b = some c → c < RONNABIT) ∧
    (∀ a rhs c, a < RONNABIT → bit_divide a rhs = some c → c < RONNABIT) ∧
    (∀ a b, bit_add a b = none ↔ 2 ^ 128 ≤ a + b) ∧
    (∀ a rhs, bit_multiply a rhs = none ↔ 2 ^ 128 ≤ a * rhs) := by
  refine ⟨fun n => ?_, fun s m h => bit_parse_str_ok_lt h, fun a b c ha h => ?_,
    fun a rhs c ha h => ?_, fun a b => ?_, fun a rhs => ?_⟩
  · unfold bit_from_u128; split <;> simp_all
  · unfold bit_subtract at h
    split at h
    · cases h; omega
    · exact absurd h (by simp)
  · unfold bit_divide at h
    split at h
    · exact absurd h (by simp)
    · cases h; exact lt_of_le_of_lt (Nat.div_le_self a rhs) ha
  · unfold bit_add; split <;> simp <;> omega
  · unfold bit_multiply; split <;> simp <;> omega

/-- C8 (witness): the amended range facts evaluated at concrete points. -/
theorem c8_witness :
    ((bit_from_u128 7).isSome ↔ 7 < RONNABIT) ∧
    (2 ≤ 5 → bit_subtract 5 2 = some 3 → 3 < RONNABIT) :=
  ⟨c8_range_enforcement.1 7,
   fun _ h => c8_range_enforcement.2.2.1 5 2 3 (by decide) h⟩

/-- What `exact_loop` finds: either the first list element satisfying the
divisibility test (everything before it failing), or nothing because every
element fails. -/
lemma exact_loop_cases (v : Nat) (mag : BUnit → Nat) (l : List BUnit) :
    (∃ u l₁ l₂, exact_loop v mag l = some (v / mag u, u) ∧ l = l₁ ++ u :: l₂ ∧
      (mag u ≤ v ∧ v % mag u = 0) ∧ ∀ x ∈ l₁, ¬(mag x ≤ v ∧ v % mag x = 0)) ∨
    (exact_loop v mag l = none ∧ ∀ x ∈ l, ¬(mag x ≤ v ∧ v % mag x = 0)) := by
  induction l with
  | nil => right; simp [exact_loop]
  | cons a t ih =>
    by_cases h : mag a ≤ v ∧ v % mag a = 0
    · left
      exact ⟨a, [], t, by simp [exact_loop, h], rfl, h, by simp⟩
    · rcases ih with ⟨u, l₁, l₂, hf, he, hc, hall⟩ | ⟨hf, hall⟩
      · left
        refine ⟨u, a :: l₁, l₂, by simp [exact_loop, h, hf], by simp [he], hc, ?_⟩
        intro x hx
        rcases List.mem_cons.mp hx with rfl | hx
        · exact h
        · exact hall x hx
      · right
        refine ⟨by simp [exact_loop, h, hf], ?_⟩
        intro x hx
        rcases List.mem_cons.mp hx with rfl | hx
        · exact h
        · exact hall x hx

/-- Is the list strictly decreasing under the magnitude function?  (Used to
state that the walked unit lists go from largest to smallest.) -/
def mag_descending (mag : BUnit → Nat) : List BUnit → Bool
  | [] => true
  | [_] => true
  | a :: b :: t => decide (mag b < mag a) && mag_descending mag (b :: t)

/-- The search policy of `get_exact_unit` stated in the spec's words: the
result `r` is the first unit of the walk list `el` whose magnitude (under
`mag`) is a divisor not exceeding `v`, paired with the exact quotient — or
the base unit with the full magnitude when no element qualifies. -/
def exact_first_spec (v : Nat) (mag : BUnit → Nat) (el : List BUnit) (base : BUnit)
    (r : Nat × BUnit) : Prop :=
  (∃ l₁ l₂, el = l₁ ++ r.2 :: l₂ ∧ mag r.2 ≤ v ∧ v % mag r.2 = 0 ∧ r.1 = v / mag r.2 ∧
    ∀ x ∈ l₁, ¬(mag x ≤ v ∧ v % mag x = 0)) ∨
  (r = (v, base) ∧ ∀ x ∈ el, ¬(mag x ≤ v ∧ v % mag x = 0))

/-- `exact_loop` plus fallback satisfies `exact_first_spec`. -/
lemma exact_loop_first_spec (v : Nat) (mag : BUnit → Nat) (l : List BUnit) (base : BUnit) :
    exact_first_spec v mag l base ((exact_loop v mag l).getD (v, base)) := by
  rcases exact_loop_cases v mag l with ⟨u, l₁, l₂, hf, he, hc, hall⟩ | ⟨hf, hall⟩
  · rw [hf]
    left
    exact ⟨l₁, l₂, he, hc.1, hc.2, rfl, hall⟩
  · rw [hf]
    right
    exact ⟨rfl, hall⟩

/-- C5 (confirmed): for every magnitude and both eligibility flags, each
`get_exact_unit` walks its unit list from largest to smallest magnitude
(the walked lists are strictly decreasing), returns the first unit whose
magnitude divides and does not exceed the value together with the exact
quotient — so quotient times magnitude restores the value exactly — and falls
back to the base unit (`b` for bits, `B` for bytes) with the full
magnitude. -/
theorem c5_exact_unit_divisibility (m : Nat) (allow : Bool) :
    (bit_get_exact_unit m allow).1 * as_bits_u128 (bit_get_exact_unit m allow).2 = m ∧
    (byte_get_exact_unit m allow).1 * as_bytes_u128 (byte_get_exact_unit m allow).2 = m ∧
    exact_first_spec m as_bits_u128
      ((if allow then get_multiples else get_multiples_bits).reverse) .Bit
      (bit_get_exact_unit m allow) ∧
    exact_first_spec m as_bytes_u128
      ((if allow then get_multiples else get_multiples_bytes).reverse) .B
      (byte_get_exact_unit m allow) ∧
    mag_descending as_bits_u128
      ((if allow then get_multiples else get_multiples_bits).reverse) = true ∧
    mag_descending as_bytes_u128
      ((if allow then get_multiples else get_multiples_bytes).reverse) = true := by
  have hbit := exact_loop_first_spec m as_bits_u128
    ((if allow then get_multiples else get_multiples_bits).reverse) .Bit
  have hbyte := exact_loop_first_spec m as_bytes_u128
    ((if allow then get_multiples else get_multiples_bytes).reverse) .B
  have ebit : bit_get_exact_unit m allow =
      (exact_loop m as_bits_u128
        ((if allow then get_multiples else get_multiples_bits).reverse)).getD (m, .Bit) := rfl
  have ebyte : byte_get_exact_unit m allow =
      (exact_loop m as_bytes_u128
        ((if allow then get_multiples else get_multiples_bytes).reverse)).getD (m, .B) := rfl
  rw [ebit, ebyte]
  refine ⟨?_, ?_, hbit, hbyte, ?_, ?_⟩
  · rcases hbit with ⟨l₁, l₂, _, _, hmod, hq, _⟩ | ⟨hr, _⟩
    · rw [hq, Nat.div_mul_cancel (Nat.dvd_of_mod_eq_zero hmod)]
    · rw [hr]; simp [as_bits_u128]
  · rcases hbyte with ⟨l₁, l₂, _, _, hmod, hq, _⟩ | ⟨hr, _⟩
    · rw [hq, Nat.div_mul_cancel (Nat.dvd_of_mod_eq_zero hmod)]
    · rw [hr]; simp [as_bytes_u128, as_bits_u128]
  · cases allow <;> decide
  · cases allow <;> decide

/-- C5 (witness): the exact-unit factorization at `3145728` bits
(`3 * 2^20`), both flags discharged concretely via the main theorem. -/
theorem c5_witness :
    (bit_get_exact_unit 3145728 true).1 * as_bits_u128 (bit_get_exact_unit 3145728 true).2 =
      3145728 :=
  (c5_exact_unit_divisibility 3145728 true).1

/-- What `List.find?` finds: either the first element satisfying the
predicate (everything before it failing), or nothing because every element
fails. -/
lemma find?_first_cases {α : Type} (p : α → Bool) (l : List α) :
    (∃ a l₁ l₂, l.find? p = some a ∧ l = l₁ ++ a :: l₂ ∧ p a = true ∧
      ∀ x ∈ l₁, p x = false) ∨
    (l.find? p = none ∧ ∀ x ∈ l, p x = false) := by
  induction l with
  | nil => right; simp
  | cons a t ih =>
    by_cases h : p a
    · left
      exact ⟨a, [], t, by simp [List.find?_cons_of_pos _ h], rfl, h, by simp⟩
    · rcases ih with ⟨b, l₁, l₂, hf, he, hp, hall⟩ | ⟨hf, hall⟩
      · left
        refine ⟨b, a :: l₁, l₂,
          by rw [List.find?_cons_of_neg _ (by simpa using h)]; exact hf,
          by simp [he], hp, ?_⟩
        intro x hx
        rcases List.mem_cons.mp hx with rfl | hx
        · simpa using h
        · exact hall x hx
      · right
        refine ⟨by rw [List.find?_cons_of_neg _ (by simpa using h)]; exact hf, ?_⟩
        intro x hx
        rcases List.mem_cons.mp hx with rfl | hx
        · simpa using h
        · exact hall x hx

/-- The defining property of `dec_div` whenever the divisor divides a power
of ten: the mantissa times the divisor restores the dividend at the chosen
scale. -/
lemma dec_div_spec {a b : Nat} (hdvd : b ∣ 10 ^ 100) :
    (dec_div a b).num * b = a * 10 ^ (dec_div a b).scale := by
  unfold dec_div
  rcases find?_first_cases (fun s => a * 10 ^ s % b = 0) (List.range 101) with
    ⟨s, l₁, l₂, hf, _, hp, _⟩ | ⟨hf, hall⟩
  · rw [hf]
    exact Nat.div_mul_cancel (Nat.dvd_of_mod_eq_zero (of_decide_eq_true hp))
  · exfalso
    have h100 : (100 : Nat) ∈ List.range 101 := by decide
    have hfalse := hall 100 h100
    rw [decide_eq_false_iff_not] at hfalse
    exact hfalse (Nat.dvd_iff_mod_eq_zero.mp (Dvd.dvd.mul_left hdvd a))

/-- Every unit on the lists walked by `Bit::get_appropriate_unit` is a
multiple bit unit: positive magnitude dividing `10 ^ 100`, never the `Bit` or
`B` arm of `get_adjusted_unit`. -/
lemma bit_appropriate_list_units (ut : UnitType) :
    ∀ u ∈ bit_appropriate_list ut,
      u ≠ .Bit ∧ u ≠ .B ∧ 0 < as_bits_u128 u ∧ as_bits_u128 u ∣ 10 ^ 100 := by
  cases ut <;> decide

/-- C4 (counterexample): a `Bit` value of 500 is smaller than every multiple,
and `Bit::get_appropriate_unit` then falls back to `Unit::B` — not to the
1-bit base unit the claim names for the bit type (the adjusted value is the
raw bit count 500). -/
theorem c4_counterexample :
    bit_get_appropriate_unit 500 .Decimal = ⟨⟨500, 0⟩, .B⟩ ∧ BUnit.B ≠ BUnit.Bit := by decide

/-- C4 (amended): both searches walk their (strictly magnitude-descending)
unit list from largest to smallest.  The v5 bit version returns the first
unit whose magnitude the value meets or exceeds, and when the value is
smaller than every multiple it falls back to `Unit::B` (not the 1-bit base
unit), with the raw bit count as the value; consequently the value field is
at least 1 whenever the magnitude is at least 1.  The legacy byte version
returns the first unit whose magnitude the value strictly exceeds (at exactly
the unit's magnitude it falls through), falling back to `B` with the raw byte
count. -/
theorem c4_appropriate_unit_search :
    (∀ m ut,
      (∃ u l₁ l₂, bit_appropriate_list ut = l₁ ++ u :: l₂ ∧ as_bits_u128 u ≤ m ∧
        (∀ x ∈ l₁, m < as_bits_u128 x) ∧
        bit_get_appropriate_unit m ut = bit_get_adjusted_unit m u) ∨
      ((∀ x ∈ bit_appropriate_list ut, m < as_bits_u128 x) ∧
        bit_get_appropriate_unit m ut = bit_get_adjusted_unit m .B)) ∧
    (∀ ut, mag_descending as_bits_u128 (bit_appropriate_list ut) = true) ∧
    (∀ m ut, 1 ≤ m →
      10 ^ (bit_get_appropriate_unit m ut).value.scale ≤
        (bit_get_appropriate_unit m ut).value.num) ∧
    (∀ bytes binary,
      (∃ u l₁ l₂, legacy_chain binary = l₁ ++ u :: l₂ ∧ as_bytes_u128 u < bytes ∧
        (∀ x ∈ l₁, bytes ≤ as_bytes_u128 x) ∧
        legacy_byte_get_appropriate_unit bytes binary =
          ⟨dec_div bytes (as_bytes_u128 u), u⟩) ∨
      ((∀ x ∈ legacy_chain binary, bytes ≤ as_bytes_u128 x) ∧
        legacy_byte_get_appropriate_unit bytes binary = ⟨⟨bytes, 0⟩, .B⟩)) ∧
    (∀ binary, mag_descending as_bytes_u128 (legacy_chain binary) = true) := by
  have main : ∀ (m : Nat) (ut : UnitType),
      (∃ u l₁ l₂, bit_appropriate_list ut = l₁ ++ u :: l₂ ∧ as_bits_u128 u ≤ m ∧
        (∀ x ∈ l₁, m < as_bits_u128 x) ∧
        bit_get_appropriate_unit m ut = bit_get_adjusted_unit m u) ∨
      ((∀ x ∈ bit_appropriate_list ut, m < as_bits_u128 x) ∧
        bit_get_appropriate_unit m ut = bit_get_adjusted_unit m .B) := by
    intro m ut
    rcases find?_first_cases (fun u => as_bits_u128 u ≤ m) (bit_appropriate_list ut) with
      ⟨u, l₁, l₂, hf, he, hp, hall⟩ | ⟨hf, hall⟩
    · left
      refine ⟨u, l₁, l₂, he, of_decide_eq_true hp, ?_, ?_⟩
      · intro x hx
        have := hall x hx
        rw [decide_eq_false_iff_not] at this
        omega
      · unfold bit_get_appropriate_unit
        rw [hf]
    · right
      refine ⟨?_, ?_⟩
      · intro x hx
        have := hall x hx
        rw [decide_eq_false_iff_not] at this
        omega
      · unfold bit_get_appropriate_unit
        rw [hf]
  refine ⟨main, fun ut => by cases ut <;> rfl, ?_, ?_, fun binary => by cases binary <;> rfl⟩
  · intro m ut hm
    rcases main m ut with ⟨u, l₁, l₂, he, hle, _, hr⟩ | ⟨_, hr⟩
    · have hu := bit_appropriate_list_units ut u (he ▸ List.mem_append_right l₁ (List.mem_cons_self u l₂))
      rw [hr]
      show 10 ^ (bit_get_adjusted_unit m u).value.scale ≤ (bit_get_adjusted_unit m u).value.num
      have hval : (bit_get_adjusted_unit m u).value = dec_div m (as_bits_u128 u) := by
        unfold bit_get_adjusted_unit
        simp [hu.1, hu.2.1]
      rw [hval]
      have hspec := dec_div_spec (a := m) hu.2.2.2
      have hb := hu.2.2.1
      nlinarith [hspec, hle, Nat.one_le_iff_ne_zero.mpr (by positivity :
        (10 : Nat) ^ (dec_div m (as_bits_u128 u)).scale ≠ 0)]
    · rw [hr]
      show 10 ^ (bit_get_adjusted_unit m .B).value.scale ≤ (bit_get_adjusted_unit m .B).value.num
      simpa [bit_get_adjusted_unit] using hm
  · intro bytes binary
    rcases find?_first_cases (fun u => as_bytes_u128 u < bytes) (legacy_chain binary) with
      ⟨u, l₁, l₂, hf, he, hp, hall⟩ | ⟨hf, hall⟩
    · left
      refine ⟨u, l₁, l₂, he, of_decide_eq_true hp, ?_, ?_⟩
      · intro x hx
        have := hall x hx
        rw [decide_eq_false_iff_not] at this
        omega
      · unfold legacy_byte_get_appropriate_unit
        rw [hf]
    · right
      refine ⟨?_, ?_⟩
      · intro x hx
        have := hall x hx
        rw [decide_eq_false_iff_not] at this
        omega
      · unfold legacy_byte_get_appropriate_unit
        rw [hf]

/-- C4 (witness): the amended search facts at `m = 15000000`,
`UnitType::Decimal`, with the hypothesis `1 ≤ m` discharged concretely. -/
theorem c4_witness :
    10 ^ (bit_get_appropriate_unit 15000000 .Decimal).value.scale ≤
      (bit_get_appropriate_unit 15000000 .Decimal).value.num :=
  c4_appropriate_unit_search.2.2.1 15000000 .Decimal (by decide)

/-- Every `BUnit` is `Bit`, `B`, or one of the multiples. -/
lemma bunit_cases : ∀ u : BUnit, u = .Bit ∨ u = .B ∨ u ∈ get_multiples := by decide

/-- Every multiple unit has a positive bit magnitude dividing `10 ^ 100` and
is neither `Bit` nor `B`. -/
lemma get_multiples_units :
    ∀ u ∈ get_multiples,
      u ≠ .Bit ∧ u ≠ .B ∧ 0 < as_bits_u128 u ∧ as_bits_u128 u ∣ 10 ^ 100 := by decide

/-- `bit_from_decimal` at scale 0 is the plain bounds check. -/
lemma bit_from_decimal_scale0 (n : Nat) : bit_from_decimal ⟨n, 0⟩ = bit_from_u128 n := by
  unfold bit_from_decimal
  simp [Nat.mod_one]

/-- `bit_from_u128` fails exactly at `RONNABIT` and beyond. -/
lemma bit_from_u128_none (n : Nat) : bit_from_u128 n = none ↔ RONNABIT ≤ n := by
  unfold bit_from_u128
  split <;> simp <;> omega

/-- C10 (counterexample): for the valid magnitude `2^87` (below `RONNABIT`,
and exactly representable in `f64`), `get_adjusted_unit(Unit::Bit)` stores
`2^87 << 3 = 2^90 > 10^27`, so `get_bit`'s bounds-checked reconstruction
returns `None` and the source's `.unwrap()` panics: the model evaluates to
`none`. -/
theorem c10_counterexample :
    adjusted_bit_get_bit (bit_get_adjusted_unit 154742504910672534362390528 .Bit) = none ∧
    (bit_from_u128 154742504910672534362390528).isSome = true := by decide

/-- C10 (amended): for a valid magnitude `m < RONNABIT`, the reconstruction
`v.get_adjusted_unit(u).get_bit()` fails (i.e. the source's `unwrap` panics)
exactly when `u` is `Bit` or `B` and `8 * m` reaches `RONNABIT`: both those
arms of `get_adjusted_unit` reconstruct to `8 * m` (`Bit` because the source
multiplies the bit count by 8 as if it were a byte count, `B` because the raw
bit count is rescaled by `B`'s 8-bit magnitude); every multiple unit divides
out exactly and reconstructs `m < RONNABIT`. -/
theorem c10_get_bit_panic_condition (m : Nat) (u : BUnit) (hm : m < RONNABIT) :
    adjusted_bit_get_bit (bit_get_adjusted_unit m u) = none ↔
      ((u = .Bit ∨ u = .B) ∧ RONNABIT ≤ 8 * m) := by
  have hshift : m <<< 3 = 8 * m := by rw [Nat.shiftLeft_eq]; ring
  rcases bunit_cases u with rfl | rfl | hmem
  · have e1 : adjusted_bit_get_bit (bit_get_adjusted_unit m .Bit) =
        bit_from_decimal ⟨m <<< 3, 0⟩ := rfl
    rw [e1, hshift, bit_from_decimal_scale0, bit_from_u128_none]
    simp
  · have e1 : adjusted_bit_get_bit (bit_get_adjusted_unit m .B) =
        bit_from_decimal_with_unit ⟨m, 0⟩ .B := rfl
    have e2 : bit_from_decimal_with_unit ⟨m, 0⟩ .B =
        if 2 ^ 96 * 10 ^ (0 : Nat) ≤ m * as_bits_u128 .B then none
        else bit_from_decimal ⟨m * as_bits_u128 .B, 0⟩ := by
      unfold bit_from_decimal_with_unit
      rw [if_neg (by decide)]
    have h8 : as_bits_u128 .B = 8 := rfl
    have hR : RONNABIT = 1000000000000000000000000000 := rfl
    have h96 : (2 : Nat) ^ 96 = 79228162514264337593543950336 := by norm_num
    have hover : ¬(2 ^ 96 * 10 ^ (0 : Nat) ≤ m * 8) := by
      rw [pow_zero, mul_one, h96]
      omega
    rw [e1, e2, h8, if_neg hover, bit_from_decimal_scale0, bit_from_u128_none]
    constructor
    · intro h
      exact ⟨Or.inr rfl, by omega⟩
    · intro h
      omega
  · have hu := get_multiples_units u hmem
    have hval : (bit_get_adjusted_unit m u).value = dec_div m (as_bits_u128 u) := by
      unfold bit_get_adjusted_unit
      simp [hu.1, hu.2.1]
    have hspec := dec_div_spec (a := m) hu.2.2.2
    have hres : adjusted_bit_get_bit (bit_get_adjusted_unit m u) = some m := by
      unfold adjusted_bit_get_bit
      have huu : (bit_get_adjusted_unit m u).unit = u := rfl
      rw [hval, huu]
      unfold bit_from_decimal_with_unit
      rw [if_neg hu.1]
      have hover : ¬(2 ^ 96 * 10 ^ (dec_div m (as_bits_u128 u)).scale ≤
          (dec_div m (as_bits_u128 u)).num * as_bits_u128 u) := by
        rw [hspec]
        have hm96 : m < 2 ^ 96 := lt_trans hm (by unfold RONNABIT; norm_num)
        have hpow : 0 < 10 ^ (dec_div m (as_bits_u128 u)).scale := by positivity
        exact Nat.not_le.mpr (by exact Nat.mul_lt_mul_of_lt_of_le hm96 le_rfl hpow)
      rw [if_neg hover]
      unfold bit_from_decimal bit_from_u128
      simp only [hspec]
      rw [Nat.mul_div_cancel _ (by positivity), Nat.mul_mod_left]
      simp [hm]
    rw [hres]
    simp [hu.1, hu.2.1]

/-- C10 (witness): the characterization applied at `m = 1555000`,
`u = Mbit` — a safe reconstruction. -/
theorem c10_witness :
    adjusted_bit_get_bit (bit_get_adjusted_unit 1555000 .Mbit) = none ↔
      ((BUnit.Mbit = .Bit ∨ BUnit.Mbit = .B) ∧ RONNABIT ≤ 8 * 1555000) :=
  c10_get_bit_panic_condition 1555000 .Mbit (by decide)

/-- Whatever `is_zero_remainder_decimal` accepts reconstructs the dividend
exactly: mantissa times divisor equals dividend times `10 ^ scale`. -/
lemma is_zero_remainder_decimal_some {a b p : Nat} {q : Dec}
    (h : is_zero_remainder_decimal a b p = some q) : q.num * b = a * 10 ^ q.scale := by
  unfold is_zero_remainder_decimal at h
  split at h <;>
  · obtain ⟨h1, rfl⟩ := by simpa using h
    simpa using h1

/-- The quotient accepted by `is_zero_remainder_decimal` has scale 0 (at
precision 0) or the given precision. -/
lemma is_zero_remainder_decimal_scale {a b p : Nat} {q : Dec}
    (h : is_zero_remainder_decimal a b p = some q) : q.scale = 0 ∨ q.scale = p := by
  unfold is_zero_remainder_decimal at h
  split at h
  · obtain ⟨h1, rfl⟩ := by simpa using h
    left; rfl
  · obtain ⟨h1, rfl⟩ := by simpa using h
    right; rfl

/-- What `recover_loop` finds: either the first unit whose magnitude does not
exceed the value and whose rounded quotient reconstructs it (every earlier
unit failing one of the two tests), or nothing because every unit fails. -/
lemma recover_loop_cases (v p : Nat) (l : List BUnit) :
    (∃ q u l₁ l₂, recover_loop v p l = some (q, u) ∧ l = l₁ ++ u :: l₂ ∧
      as_bits_u128 u ≤ v ∧ is_zero_remainder_decimal v (as_bits_u128 u) p = some q ∧
      ∀ x ∈ l₁, ¬(as_bits_u128 x ≤ v ∧
        (is_zero_remainder_decimal v (as_bits_u128 x) p).isSome)) ∨
    (recover_loop v p l = none ∧ ∀ x ∈ l, ¬(as_bits_u128 x ≤ v ∧
      (is_zero_remainder_decimal v (as_bits_u128 x) p).isSome)) := by
  induction l with
  | nil => right; simp [recover_loop]
  | cons a t ih =>
    by_cases hle : as_bits_u128 a ≤ v
    · cases hz : is_zero_remainder_decimal v (as_bits_u128 a) p with
      | some q =>
        left
        exact ⟨q, a, [], t, by simp [recover_loop, hle, hz], rfl, hle, hz, by simp⟩
      | none =>
        have hstep : recover_loop v p (a :: t) = recover_loop v p t := by
          simp [recover_loop, hle, hz]
        have hafail : ¬(as_bits_u128 a ≤ v ∧
            (is_zero_remainder_decimal v (as_bits_u128 a) p).isSome) := by
          simp [hz]
        rcases ih with ⟨q, u, l₁, l₂, hf, he, hc, hq, hall⟩ | ⟨hf, hall⟩
        · left
          refine ⟨q, u, a :: l₁, l₂, hstep ▸ hf, by simp [he], hc, hq, ?_⟩
          intro x hx
          rcases List.mem_cons.mp hx with rfl | hx
          · exact hafail
          · exact hall x hx
        · right
          refine ⟨hstep ▸ hf, ?_⟩
          intro x hx
          rcases List.mem_cons.mp hx with rfl | hx
          · exact hafail
          · exact hall x hx
    · have hstep : recover_loop v p (a :: t) = recover_loop v p t := by
        simp [recover_loop, hle]
      have hafail : ¬(as_bits_u128 a ≤ v ∧
          (is_zero_remainder_decimal v (as_bits_u128 a) p).isSome) := by
        simp [hle]
      rcases ih with ⟨q, u, l₁, l₂, hf, he, hc, hq, hall⟩ | ⟨hf, hall⟩
      · left
        refine ⟨q, u, a :: l₁, l₂, hstep ▸ hf, by simp [he], hc, hq, ?_⟩
        intro x hx
        rcases List.mem_cons.mp hx with rfl | hx
        · exact hafail
        · exact hall x hx
      · right
        refine ⟨hstep ▸ hf, ?_⟩
        intro x hx
        rcases List.mem_cons.mp hx with rfl | hx
        · exact hafail
        · exact hall x hx

/-- The search policy of `get_recoverable_unit` in the spec's words, with the
magnitude filter made explicit: the result `r` is the first unit of the walk
list `el` whose magnitude does not exceed `v` *and* whose quotient, rounded
to `p` digits, reconstructs `v` exactly — or `(Decimal::from(v), Bit)` when
no unit qualifies. -/
def recover_first_spec (v p : Nat) (el : List BUnit) (r : Dec × BUnit) : Prop :=
  (∃ l₁ l₂, el = l₁ ++ r.2 :: l₂ ∧ as_bits_u128 r.2 ≤ v ∧
    is_zero_remainder_decimal v (as_bits_u128 r.2) p = some r.1 ∧
    ∀ x ∈ l₁, ¬(as_bits_u128 x ≤ v ∧
      (is_zero_remainder_decimal v (as_bits_u128 x) p).isSome)) ∨
  (r = (⟨v, 0⟩, .Bit) ∧ ∀ x ∈ el, ¬(as_bits_u128 x ≤ v ∧
    (is_zero_remainder_decimal v (as_bits_u128 x) p).isSome))

/-- C2 (counterexample): for 500 bits at precision 3 (bit units only),
`get_recoverable_unit` returns the fallback `(500, Bit)`, although `Kbit` —
whose quotient `0.500` rounds to itself and reconstructs 500 exactly — is in
the eligible list and every larger unit fails the reconstruction test.  The
claim's "first unit for which the rounded quotient reconstructs the
magnitude" would therefore be `Kbit`, not `Bit`: the code additionally skips
every unit whose magnitude exceeds the value. -/
theorem c2_counterexample :
    (bit_get_recoverable_unit 500 false 3).2 = .Bit ∧
    is_zero_remainder_decimal 500 (as_bits_u128 .Kbit) 3 = some ⟨500, 3⟩ ∧
    (∀ x ∈ get_multiples_bits, 1000 < as_bits_u128 x →
      is_zero_remainder_decimal 500 (as_bits_u128 x) 3 = none) ∧
    BUnit.Kbit ≠ BUnit.Bit := by decide

/-- C2 (amended): for every magnitude, flag and precision, the pair returned
by `get_recoverable_unit` reconstructs the magnitude exactly
(`quotient * unit_bits = magnitude`, stated at scale `10 ^ scale`), and the
returned unit is the first unit of the walked (largest-to-smallest) list
*whose magnitude does not exceed the value* and whose quotient rounded to the
(28-clamped) precision reconstructs the magnitude; when no such unit exists
the base `Bit` unit is returned with the raw magnitude. -/
theorem c2_recoverable_unit (m : Nat) (ab : Bool) (p : Nat) :
    (bit_get_recoverable_unit m ab p).1.num *
        as_bits_u128 (bit_get_recoverable_unit m ab p).2 =
      m * 10 ^ (bit_get_recoverable_unit m ab p).1.scale ∧
    recover_first_spec m (if 28 ≤ p then 28 else p)
      ((if ab then get_multiples else get_multiples_bits).reverse)
      (bit_get_recoverable_unit m ab p) := by
  have e : bit_get_recoverable_unit m ab p =
      (recover_loop m (if 28 ≤ p then 28 else p)
        ((if ab then get_multiples else get_multiples_bits).reverse)).getD
        (⟨m, 0⟩, .Bit) := rfl
  rcases recover_loop_cases m (if 28 ≤ p then 28 else p)
      ((if ab then get_multiples else get_multiples_bits).reverse) with
    ⟨q, u, l₁, l₂, hf, he, hc, hq, hall⟩ | ⟨hf, hall⟩
  · rw [e, hf]
    refine ⟨is_zero_remainder_decimal_some hq, Or.inl ⟨l₁, l₂, he, hc, hq, hall⟩⟩
  · rw [e, hf]
    exact ⟨by simp [as_bits_u128], Or.inr ⟨rfl, hall⟩⟩

/-- C2 (witness): the reconstruction identity at `3670016` bits (`3.5 Mibit`),
precision 3, bit units only. -/
theorem c2_witness :
    (bit_get_recoverable_unit 3670016 false 3).1.num *
        as_bits_u128 (bit_get_recoverable_unit 3670016 false 3).2 =
      3670016 * 10 ^ (bit_get_recoverable_unit 3670016 false 3).1.scale :=
  (c2_recoverable_unit 3670016 false 3).1

/-!  Infrastructure for the C1 round trip: digit strings and the value
accumulated by the parse loops. -/

/-- The value the parser's accumulator reaches after folding a digit-byte
list into `acc` (each step is `acc * 10 + (byte - 48)`). -/
def digits_val (acc : Nat) (ds : List Nat) : Nat :=
  ds.foldl (fun a d => a * 10 + (d - 48)) acc

lemma digits_val_nil (acc : Nat) : digits_val acc [] = acc := rfl

lemma digits_val_cons (acc d : Nat) (ds : List Nat) :
    digits_val acc (d :: ds) = digits_val (acc * 10 + (d - 48)) ds := rfl

lemma digits_val_append (acc : Nat) (xs ys : List Nat) :
    digits_val acc (xs ++ ys) = digits_val (digits_val acc xs) ys := by
  unfold digits_val
  exact List.foldl_append _ _ xs ys

lemma digits_val_ge (acc : Nat) (ds : List Nat) : acc ≤ digits_val acc ds := by
  induction ds generalizing acc with
  | nil => exact le_refl _
  | cons d ds ih =>
    rw [digits_val_cons]
    exact le_trans (by omega) (ih (acc * 10 + (d - 48)))

lemma digits_val_replicate_48 (acc k : Nat) :
    digits_val acc (List.replicate k 48) = acc * 10 ^ k := by
  induction k generalizing acc with
  | zero => simp [digits_val_nil]
  | succ k ih =>
    rw [List.replicate_succ, digits_val_cons, ih]
    simp
    ring

lemma nat_digits_aux_eq (f f' n : Nat) (h : n < f) (h' : n < f') :
    nat_digits_aux f n = nat_digits_aux f' n := by
  induction f generalizing f' n with
  | zero => omega
  | succ f ih =>
    cases f' with
    | zero => omega
    | succ f' =>
      show nat_digits_aux (f + 1) n = nat_digits_aux (f' + 1) n
      unfold nat_digits_aux
      by_cases hn : n < 10
      · simp [hn]
      · have hd : n / 10 < n := Nat.div_lt_self (by omega) (by omega)
        simp only [if_neg hn]
        rw [ih f' (n / 10) (by omega) (by omega)]

/-- The unfolding equation of `nat_digits` free of the fuel. -/
lemma nat_digits_eq (n : Nat) :
    nat_digits n = if n < 10 then [48 + n] else nat_digits (n / 10) ++ [48 + n % 10] := by
  show nat_digits_aux (n + 1) n = _
  unfold nat_digits_aux
  by_cases hn : n < 10
  · simp [hn]
  · have hd : n / 10 < n := Nat.div_lt_self (by omega) (by omega)
    simp only [if_neg hn]
    rw [nat_digits_aux_eq n (n / 10 + 1) (n / 10) (by omega) (by omega)]
    rfl

lemma nat_digits_ne_nil (n : Nat) : nat_digits n ≠ [] := by
  rw [nat_digits_eq]
  split <;> simp

lemma nat_digits_all_digits (n : Nat) : ∀ d ∈ nat_digits n, is_digit_byte d = true := by
  induction n using Nat.strong_induction_on with
  | _ n ih =>
    rw [nat_digits_eq]
    by_cases hn : n < 10
    · simp only [if_pos hn, List.mem_singleton]
      rintro d rfl
      simp [is_digit_byte]
      omega
    · simp only [if_neg hn]
      intro d hd
      rcases List.mem_append.mp hd with hd | hd
      · exact ih (n / 10) (Nat.div_lt_self (by omega) (by omega)) d hd
      · rcases List.mem_singleton.mp hd with rfl
        have := Nat.mod_lt n (show 0 < 10 by omega)
        simp [is_digit_byte]
        omega

lemma nat_digits_val (n acc : Nat) :
    digits_val acc (nat_digits n) = acc * 10 ^ (nat_digits n).length + n := by
  induction n using Nat.strong_induction_on generalizing acc with
  | _ n ih =>
    rw [nat_digits_eq]
    by_cases hn : n < 10
    · simp only [if_pos hn, List.length_singleton, pow_one]
      rw [digits_val_cons, digits_val_nil]
      omega
    · simp only [if_neg hn]
      rw [digits_val_append, ih (n / 10) (Nat.div_lt_self (by omega) (by omega)) acc,
        digits_val_cons, digits_val_nil, List.length_append, List.length_singleton]
      have hmod : 48 + n % 10 - 48 = n % 10 := by omega
      rw [hmod, pow_succ]
      have := Nat.div_add_mod n 10
      ring_nf
      nlinarith [Nat.div_add_mod n 10]

lemma nat_digits_len_le (n L : Nat) (hL : 0 < L) (h : n < 10 ^ L) :
    (nat_digits n).length ≤ L := by
  induction n using Nat.strong_induction_on generalizing L with
  | _ n ih =>
    rw [nat_digits_eq]
    by_cases hn : n < 10
    · simp only [if_pos hn, List.length_singleton]
      omega
    · have hL2 : 2 ≤ L := by
        by_contra hc
        have : L = 1 := by omega
        subst this
        simp at h
        omega
      simp only [if_neg hn, List.length_append, List.length_singleton]
      have hdiv : n / 10 < 10 ^ (L - 1) := by
        have h10 : 10 ^ L = 10 ^ (L - 1) * 10 := by
          rw [← pow_succ]
          congr 1
          omega
        rw [h10] at h
        exact Nat.div_lt_of_lt_mul (by omega)
      have := ih (n / 10) (Nat.div_lt_self (by omega) (by omega)) (L - 1) (by omega) hdiv
      omega

/-- The step equation of `parse_int_loop` on a cons cell. -/
lemma parse_int_loop_cons (value e : Nat) (rest : List Nat) :
    parse_int_loop value (e :: rest) =
      if is_digit_byte e then
        if 2 ^ 96 ≤ value * 10 then .error .NumberTooLong
        else if 2 ^ 96 ≤ value * 10 + (e - 48) then .error .NumberTooLong
        else parse_int_loop (value * 10 + (e - 48)) rest
      else if e = 46 then parse_frac_loop ⟨value, 0⟩ 1 46 rest
      else if e = 32 then .ok (⟨value, 0⟩, skip_spaces rest)
      else .ok (⟨value, 0⟩, some e, rest) := rfl

/-- The step equation of `parse_frac_loop` on a cons cell. -/
lemma parse_frac_loop_cons (value : Dec) (i dot e : Nat) (rest : List Nat) :
    parse_frac_loop value i dot (e :: rest) =
      if is_digit_byte e then
        if 28 < i then .error .NumberTooLong
        else parse_frac_loop ⟨value.num * 10 + (e - 48), i⟩ (i + 1) dot rest
      else if i = 1 then .error (.NotNumber (get_char_from_bytes e rest))
      else if e = 32 then .ok (value, skip_spaces rest)
      else .ok (value, some e, rest) := rfl

lemma parse_int_loop_digits (ds : List Nat) (t : List Nat) (acc : Nat)
    (hd : ∀ d ∈ ds, is_digit_byte d = true) (hb : digits_val acc ds < 2 ^ 96) :
    parse_int_loop acc (ds ++ t) = parse_int_loop (digits_val acc ds) t := by
  induction ds generalizing acc with
  | nil => rw [digits_val_nil]; rfl
  | cons e ds ih =>
    have he : is_digit_byte e = true := hd e (List.mem_cons_self e ds)
    rw [digits_val_cons] at hb ⊢
    have hge := digits_val_ge (acc * 10 + (e - 48)) ds
    rw [List.cons_append, parse_int_loop_cons, if_pos he, if_neg (by omega),
      if_neg (by omega)]
    exact ih (acc * 10 + (e - 48)) (fun d hmem => hd d (List.mem_cons_of_mem e hmem)) hb

/-- Consuming a digit run with `parse_frac_loop`: starting at 1-based index
`i` with the accumulator at scale `i - 1`, folding `ds` advances the index
by `ds.length` (never beyond scale 28 under the stated bound). -/
lemma parse_frac_loop_digits (ds : List Nat) (t : List Nat) (num i : Nat)
    (hd : ∀ d ∈ ds, is_digit_byte d = true) (hi : 1 ≤ i) (hlen : i + ds.length ≤ 29) :
    parse_frac_loop ⟨num, i - 1⟩ i 46 (ds ++ t) =
      parse_frac_loop ⟨digits_val num ds, i - 1 + ds.length⟩ (i + ds.length) 46 t := by
  induction ds generalizing num i with
  | nil => rw [digits_val_nil]; simp
  | cons e ds ih =>
    have he : is_digit_byte e = true := hd e (List.mem_cons_self e ds)
    rw [digits_val_cons]
    simp only [List.length_cons] at hlen ⊢
    rw [List.cons_append, parse_frac_loop_cons, if_pos he, if_neg (by omega)]
    have hstep := ih (num * 10 + (e - 48)) (i + 1)
      (fun d hmem => hd d (List.mem_cons_of_mem e hmem)) (by omega) (by omega)
    have hsc : i + 1 - 1 = i := by omega
    rw [hsc] at hstep
    rw [hstep]
    have h1 : i + ds.length = i - 1 + (ds.length + 1) := by omega
    have h2 : i + 1 + ds.length = i + (ds.length + 1) := by omega
    rw [h1, h2]

/-- `trim_bytes` does nothing when the first and last bytes are not
whitespace. -/
lemma trim_bytes_eq_self (l : List Nat)
    (hh : ∀ x, l.head? = some x → is_space_byte x = false)
    (hl : ∀ x, l.getLast? = some x → is_space_byte x = false) :
    trim_bytes l = l := by
  unfold trim_bytes
  have h1 : l.dropWhile is_space_byte = l := by
    cases l with
    | nil => rfl
    | cons a t =>
      rw [List.dropWhile_cons_of_neg]
      simp [hh a rfl]
  rw [h1]
  have h2 : l.reverse.dropWhile is_space_byte = l.reverse := by
    cases hrev : l.reverse with
    | nil => rfl
    | cons b s =>
      rw [List.dropWhile_cons_of_neg]
      have : l.getLast? = some b := by
        rw [← List.head?_reverse, hrev]
        rfl
      simp [hl b this]
  rw [h2, List.reverse_reverse]

/-- `dec_normalize_aux` never increases the scale. -/
lemma dec_normalize_aux_scale_le (n s : Nat) : (dec_normalize_aux n s).scale ≤ s := by
  induction s generalizing n with
  | zero => exact le_refl _
  | succ s ih =>
    unfold dec_normalize_aux
    split
    · exact le_trans (ih (n / 10)) (by omega)
    · exact le_refl _

/-- The bit-flavored units (`Bit` and the bit multiples): exactly what
`get_recoverable_unit(false, _)` can return.  Their canonical strings all end
in `b` (byte 98), skipping spaces off any of them yields head and tail, and
`read_xib` with `ignore_case = false`, `prefer_byte = false` parses each
string back to the same unit. -/
lemma unit_str_facts :
    ∀ u ∈ (BUnit.Bit :: get_multiples_bits),
      skip_spaces (as_str_bytes u) = ((as_str_bytes u).head?, (as_str_bytes u).tail) ∧
      read_xib (as_str_bytes u).head? (as_str_bytes u).tail false false = .ok u ∧
      (as_str_bytes u).getLast? = some 98 := by decide

lemma not_space_of_digit {e : Nat} (h : is_digit_byte e = true) :
    is_space_byte e = false := by
  simp [is_digit_byte] at h
  simp [is_space_byte]
  omega

/-- The step equation of the parse body on a cons cell. -/
lemma bit_parse_trimmed_cons (e : Nat) (rest : List Nat) :
    bit_parse_trimmed (e :: rest) =
      if is_digit_byte e then
        match parse_int_loop (e - 48) rest with
        | .error pe => .error (.Value pe)
        | .ok (value, ne, rest2) =>
          match read_xib ne rest2 false false with
          | .error ue => .error (.Unit ue)
          | .ok unit =>
            match bit_from_decimal_with_unit value unit with
            | some m => .ok m
            | none => .error (.Value (.ExceededBounds value))
      else .error (.Value (.NotNumber (get_char_from_bytes e rest))) := rfl

/-- Parsing a rendered decimal, a space and a bit-unit string recovers
exactly what `from_decimal_with_unit` makes of the pair. -/
lemma parse_of_display (d : Dec) (u : BUnit) (m : Nat)
    (hscale : d.scale ≤ 28) (hint : d.num / 10 ^ d.scale < 2 ^ 96)
    (hu : u ∈ (BUnit.Bit :: get_multiples_bits))
    (hsome : bit_from_decimal_with_unit d u = some m) :
    bit_parse_str (dec_display_bytes d ++ 32 :: as_str_bytes u) = .ok m := by
  obtain ⟨hskip, hxib, hlast⟩ := unit_str_facts u hu
  have hub_ne : as_str_bytes u ≠ [] := by
    intro hnil
    rw [hnil] at hlast
    exact absurd hlast (by simp)
  -- the final segment of the parse, shared by both scale cases
  have hfinish : ∀ value : Dec, value = d →
      (match read_xib (skip_spaces (as_str_bytes u)).1 (skip_spaces (as_str_bytes u)).2
          false false with
        | .error ue => Except.error (ParseError.Unit ue)
        | .ok unit =>
          match bit_from_decimal_with_unit value unit with
          | some n => Except.ok n
          | none => Except.error (.Value (.ExceededBounds value))) = .ok m := by
    rintro value rfl
    rw [hskip]
    simp only [hxib]
    rw [hsome]
  -- the byte string being parsed, decomposed
  cases hsd : d.scale with
  | zero =>
    -- display is the bare digit string of the mantissa
    have hdisp : dec_display_bytes d = nat_digits d.num := by
      unfold dec_display_bytes
      rw [hsd]
      simp
    obtain ⟨e, ds, hds⟩ : ∃ e ds, nat_digits d.num = e :: ds := by
      cases h : nat_digits d.num with
      | nil => exact absurd h (nat_digits_ne_nil _)
      | cons e ds => exact ⟨e, ds, rfl⟩
    have hdigits := nat_digits_all_digits d.num
    have he : is_digit_byte e = true := hdigits e (hds ▸ List.mem_cons_self e ds)
    have hval : digits_val (e - 48) ds = d.num := by
      have h0 := nat_digits_val d.num 0
      rw [hds] at h0
      rw [digits_val_cons] at h0
      simpa using h0
    have hnum96 : d.num < 2 ^ 96 := by
      have := hint
      rw [hsd] at this
      simpa using this
    have htrim : trim_bytes (dec_display_bytes d ++ 32 :: as_str_bytes u) =
        dec_display_bytes d ++ 32 :: as_str_bytes u := by
      apply trim_bytes_eq_self
      · intro x hx
        rw [hdisp, hds, List.cons_append] at hx
        simp only [List.head?_cons, Option.some.injEq] at hx
        exact hx ▸ not_space_of_digit he
      · intro x hx
        rw [List.getLast?_append_cons] at hx
        have : (32 :: as_str_bytes u).getLast? = (as_str_bytes u).getLast? := by
          cases hub : as_str_bytes u with
          | nil => exact absurd hub hub_ne
          | cons b bs => exact List.getLast?_append_cons [32] b bs
        rw [this, hlast] at hx
        simp only [Option.some.injEq] at hx
        subst hx
        rfl
    unfold bit_parse_str
    rw [htrim, hdisp, hds, List.cons_append]
    rw [bit_parse_trimmed_cons, if_pos he]
    rw [parse_int_loop_digits ds (32 :: as_str_bytes u) (e - 48)
      (fun x hx => hdigits x (hds ▸ List.mem_cons_of_mem e hx)) (hval ▸ hnum96)]
    rw [hval]
    rw [parse_int_loop_cons]
    rw [if_neg (by simp [is_digit_byte]), if_neg (by omega), if_pos rfl]
    exact hfinish ⟨d.num, 0⟩ (by cases d; simp_all)
  | succ s =>
    -- display is integer digits, a dot, and the zero-padded fraction digits
    set I := d.num / 10 ^ d.scale with hI
    set F := d.num % 10 ^ d.scale with hF
    have hFlt : F < 10 ^ d.scale := Nat.mod_lt _ (by positivity)
    have hflen : (nat_digits F).length ≤ d.scale :=
      nat_digits_len_le F d.scale (by omega) hFlt
    set pad := d.scale - (nat_digits F).length with hpad
    have hdisp : dec_display_bytes d =
        nat_digits I ++ 46 :: (List.replicate pad 48 ++ nat_digits F) := by
      unfold dec_display_bytes
      rw [if_neg (by omega)]
    obtain ⟨e, ds, hds⟩ : ∃ e ds, nat_digits I = e :: ds := by
      cases h : nat_digits I with
      | nil => exact absurd h (nat_digits_ne_nil _)
      | cons e ds => exact ⟨e, ds, rfl⟩
    have hdigits := nat_digits_all_digits I
    have he : is_digit_byte e = true := hdigits e (hds ▸ List.mem_cons_self e ds)
    have hval : digits_val (e - 48) ds = I := by
      have h0 := nat_digits_val I 0
      rw [hds] at h0
      rw [digits_val_cons] at h0
      simpa using h0
    have htrim : trim_bytes (dec_display_bytes d ++ 32 :: as_str_bytes u) =
        dec_display_bytes d ++ 32 :: as_str_bytes u := by
      apply trim_bytes_eq_self
      · intro x hx
        rw [hdisp, hds] at hx
        simp only [List.cons_append, List.head?_cons, Option.some.injEq] at hx
        exact hx ▸ not_space_of_digit he
      · intro x hx
        rw [List.getLast?_append_cons] at hx
        have : (32 :: as_str_bytes u).getLast? = (as_str_bytes u).getLast? := by
          cases hub : as_str_bytes u with
          | nil => exact absurd hub hub_ne
          | cons b bs => exact List.getLast?_append_cons [32] b bs
        rw [this, hlast] at hx
        simp only [Option.some.injEq] at hx
        subst hx
        rfl
    have hpadlen : (List.replicate pad 48 ++ nat_digits F).length = d.scale := by
      rw [List.length_append, List.length_replicate]
      omega
    have hpadval : digits_val I (List.replicate pad 48 ++ nat_digits F) = d.num := by
      rw [digits_val_append, digits_val_replicate_48, nat_digits_val]
      have hsplit : I * 10 ^ pad * 10 ^ (nat_digits F).length = I * 10 ^ d.scale := by
        rw [mul_assoc, ← pow_add]
        congr 2
        omega
      rw [hsplit, hI, hF, mul_comm (d.num / 10 ^ d.scale) (10 ^ d.scale)]
      exact Nat.div_add_mod d.num (10 ^ d.scale)
    have hpaddigits : ∀ x ∈ List.replicate pad 48 ++ nat_digits F,
        is_digit_byte x = true := by
      intro x hx
      rcases List.mem_append.mp hx with hx | hx
      · rw [List.eq_of_mem_replicate hx]
        rfl
      · exact nat_digits_all_digits F x hx
    unfold bit_parse_str
    rw [htrim, hdisp, hds]
    simp only [List.cons_append, List.append_assoc]
    rw [bit_parse_trimmed_cons, if_pos he]
    rw [parse_int_loop_digits ds _ (e - 48)
      (fun x hx => hdigits x (hds ▸ List.mem_cons_of_mem e hx))
      (by rw [hval]; exact hint)]
    rw [hval]
    rw [parse_int_loop_cons]
    rw [if_neg (by simp [is_digit_byte]), if_pos rfl]
    have hfrac := parse_frac_loop_digits (List.replicate pad 48 ++ nat_digits F)
      (32 :: as_str_bytes u) I 1 hpaddigits (le_refl 1) (by rw [hpadlen]; omega)
    simp only [Nat.sub_self] at hfrac
    simp only [List.append_assoc] at hfrac
    rw [hfrac, hpadval, hpadlen]
    rw [parse_frac_loop_cons]
    rw [if_neg (by simp [is_digit_byte]), if_neg (by omega), if_pos rfl]
    exact hfinish ⟨d.num, 0 + d.scale⟩ (by cases d; simp_all)

/-- `dec_normalize_aux` preserves the decimal value (stated by
cross-multiplication). -/
lemma dec_normalize_aux_value (n s : Nat) :
    (dec_normalize_aux n s).num * 10 ^ s = n * 10 ^ (dec_normalize_aux n s).scale := by
  induction s generalizing n with
  | zero => rfl
  | succ s ih =>
    unfold dec_normalize_aux
    split
    · next hmod =>
      have h10 := ih (n / 10)
      have hn : n / 10 * 10 = n := Nat.div_mul_cancel (Nat.dvd_of_mod_eq_zero hmod)
      calc (dec_normalize_aux (n / 10) s).num * 10 ^ (s + 1)
          = (dec_normalize_aux (n / 10) s).num * 10 ^ s * 10 := by ring
        _ = n / 10 * 10 ^ (dec_normalize_aux (n / 10) s).scale * 10 := by rw [h10]
        _ = (n / 10 * 10) * 10 ^ (dec_normalize_aux (n / 10) s).scale := by ring
        _ = n * 10 ^ (dec_normalize_aux (n / 10) s).scale := by rw [hn]
    · rfl

/-- `bit_from_decimal` of an exact integer `m` rendered at scale `s` accepts
and returns `m` when in range. -/
lemma bit_from_decimal_mul_pow (m s : Nat) (hm : m < RONNABIT) :
    bit_from_decimal ⟨m * 10 ^ s, s⟩ = some m := by
  unfold bit_from_decimal bit_from_u128
  simp [Nat.mul_div_cancel _ (show 0 < 10 ^ s by positivity), Nat.mul_mod_left, hm]

/-- When `value * unit_bits` is exactly an in-range integer `m`,
`from_decimal_with_unit` accepts and returns `m`. -/
lemma from_decimal_with_unit_of_reconstruct (d : Dec) (u : BUnit) (m : Nat)
    (hrec : d.num * as_bits_u128 u = m * 10 ^ d.scale) (hm : m < RONNABIT)
    (hb : 1 ≤ as_bits_u128 u) :
    bit_from_decimal_with_unit d u = some m := by
  unfold bit_from_decimal_with_unit
  by_cases hbit : u = BUnit.Bit
  · subst hbit
    rw [if_pos rfl]
    have h1 : as_bits_u128 BUnit.Bit = 1 := rfl
    rw [h1, mul_one] at hrec
    have : d = ⟨m * 10 ^ d.scale, d.scale⟩ := by
      cases d
      simp only at hrec
      simp [hrec]
    rw [this]
    exact bit_from_decimal_mul_pow m d.scale hm
  · rw [if_neg hbit]
    have hm96 : m < 2 ^ 96 := lt_trans hm (by unfold RONNABIT; norm_num)
    have hover : ¬(2 ^ 96 * 10 ^ d.scale ≤ d.num * as_bits_u128 u) := by
      rw [hrec]
      exact Nat.not_le.mpr (Nat.mul_lt_mul_of_lt_of_le hm96 le_rfl (by positivity))
    rw [if_neg hover]
    have : (⟨d.num * as_bits_u128 u, d.scale⟩ : Dec) = ⟨m * 10 ^ d.scale, d.scale⟩ := by
      simp [hrec]
    rw [this]
    exact bit_from_decimal_mul_pow m d.scale hm

/-- Every bit-flavored unit's magnitude is at least 1. -/
lemma bit_units_pos : ∀ u ∈ (BUnit.Bit :: get_multiples_bits), 1 ≤ as_bits_u128 u := by
  decide

/-- C1 (confirmed): formatting a `Bit` value in exact-unit mode (`Display`
with the alternate flag at any precision: recoverable unit, normalized
quotient, one space, unit string) and parsing the result with
`Bit::parse_str` restores the original magnitude exactly, for every valid
magnitude and every precision. -/
theorem c1_exact_format_round_trip (m p : Nat) (hm : m < RONNABIT) :
    bit_parse_str (bit_format_exact m p) = .ok m := by
  have hfmt : bit_format_exact m p =
      dec_display_bytes (dec_normalize (bit_get_recoverable_unit m false p).1) ++
        32 :: as_str_bytes (bit_get_recoverable_unit m false p).2 := rfl
  have hget : bit_get_recoverable_unit m false p =
      (recover_loop m (if 28 ≤ p then 28 else p) get_multiples_bits.reverse).getD
        (⟨m, 0⟩, .Bit) := rfl
  -- the returned quotient/unit pair and its three key properties
  obtain ⟨hrec, hmem, hsc⟩ :
      (bit_get_recoverable_unit m false p).1.num *
          as_bits_u128 (bit_get_recoverable_unit m false p).2 =
        m * 10 ^ (bit_get_recoverable_unit m false p).1.scale ∧
      (bit_get_recoverable_unit m false p).2 ∈ (BUnit.Bit :: get_multiples_bits) ∧
      (bit_get_recoverable_unit m false p).1.scale ≤ 28 := by
    rcases recover_loop_cases m (if 28 ≤ p then 28 else p) get_multiples_bits.reverse with
      ⟨q, u', l₁, l₂, hf, he, _, hq, _⟩ | ⟨hf, _⟩
    · rw [hget, hf]
      simp only [Option.getD_some]
      refine ⟨is_zero_remainder_decimal_some hq, ?_, ?_⟩
      · have : u' ∈ get_multiples_bits.reverse := he ▸ List.mem_append_right l₁
          (List.mem_cons_self u' l₂)
        exact List.mem_cons_of_mem _ (List.mem_reverse.mp this)
      · rcases is_zero_remainder_decimal_scale hq with h0 | hp
        · simp [h0]
        · rw [hp]
          split <;> omega
    · rw [hget, hf]
      exact ⟨by simp [as_bits_u128], List.mem_cons_self _ _, by simp⟩
  set q : Dec := (bit_get_recoverable_unit m false p).1 with hqdef
  set u : BUnit := (bit_get_recoverable_unit m false p).2 with hudef
  -- normalization preserves the reconstruction identity
  have hnorm : dec_normalize q = dec_normalize_aux q.num q.scale := rfl
  have hnval := dec_normalize_aux_value q.num q.scale
  have hnsc := dec_normalize_aux_scale_le q.num q.scale
  set d : Dec := dec_normalize_aux q.num q.scale with hddef
  have hpowpos : 0 < 10 ^ q.scale := by positivity
  have hrec' : d.num * as_bits_u128 u = m * 10 ^ d.scale := by
    have hx : d.num * as_bits_u128 u * 10 ^ q.scale =
        m * 10 ^ d.scale * 10 ^ q.scale := by
      calc d.num * as_bits_u128 u * 10 ^ q.scale
          = d.num * 10 ^ q.scale * as_bits_u128 u := by ring
        _ = q.num * 10 ^ d.scale * as_bits_u128 u := by rw [hnval]
        _ = q.num * as_bits_u128 u * 10 ^ d.scale := by ring
        _ = m * 10 ^ q.scale * 10 ^ d.scale := by rw [hrec]
        _ = m * 10 ^ d.scale * 10 ^ q.scale := by ring
    exact Nat.eq_of_mul_eq_mul_right hpowpos hx
  have hb1 : 1 ≤ as_bits_u128 u := bit_units_pos u hmem
  have hint : d.num / 10 ^ d.scale < 2 ^ 96 := by
    have hle : d.num ≤ m * 10 ^ d.scale := by
      calc d.num = d.num * 1 := by ring
        _ ≤ d.num * as_bits_u128 u := Nat.mul_le_mul_left _ hb1
        _ = m * 10 ^ d.scale := hrec'
    have : d.num / 10 ^ d.scale ≤ m * 10 ^ d.scale / 10 ^ d.scale :=
      Nat.div_le_div_right hle
    rw [Nat.mul_div_cancel _ (by positivity)] at this
    exact lt_of_le_of_lt this (lt_trans hm (by unfold RONNABIT; norm_num))
  have hsome := from_decimal_with_unit_of_reconstruct d u m hrec' hm hb1
  rw [hfmt]
  exact parse_of_display d u m (le_trans hnsc hsc) hint hmem hsome

/-- C1 (witness): the round trip evaluated at `3211776` bits, precision 3
(formatted as `3136.5 Kib`). -/
theorem c1_witness : bit_parse_str (bit_format_exact 3211776 3) = .ok 3211776 :=
  c1_exact_format_round_trip 3211776 3 (by decide)
